import Mathlib

/-!
Verification development for the denominator-graph construction
(`DenominatorGraph` in `src/chain/chain-den-graph.cc`).

The C++ code is shallowly embedded as follows.

* `StdVectorFst` models `fst::StdVectorFst`: per-state out-arc lists, a
  per-state final weight (`none` models the tropical zero, i.e. an
  infinite final weight / no final state), and a start state.
* The floating-point scalars are embedded as an arbitrary linear ordered
  field `K`; every theorem about the original program instantiates
  `K := ℝ`.  Every algorithm of the file uses the weights only through
  the value `exp(-weight)`; this map is passed to each definition as an
  explicit parameter `E : K → K` (the claims instantiate it with
  `fun w => Real.exp (-w)`), which keeps the definitions themselves
  executable.  `exp(-Final(s).Value())` is `expNegFinal E (final s)`,
  which is `0` for an infinite final weight, matching IEEE
  `exp(-inf) = 0`.
* `DenominatorGraph::SetTransitions` becomes `transitionTables` (the
  flattening computation) guarded by `setTransitions`, which returns
  `none` exactly when the `KALDI_ASSERT` on pdf-ids would fire.
* `DenominatorGraph::SetInitialProbs` becomes the iteration
  `curProbAfter`/`avgProb`, with the `KALDI_ASSERT` on the per-state
  total mass expressed by the predicate `initProbsCheckOK`.
* `NumStatesThatCanReach` becomes `numStatesThatCanReach`: the same
  reverse-adjacency construction and the same stack-based traversal,
  written with an explicit fuel parameter that provably dominates the
  loop measure `2 * (#unvisited) + (queue length)`, so the fueled loop
  is exactly the C++ loop.
* `DenominatorGraph::ComputeSpecialState` becomes `computeSpecialState`
  over `ℚ` (every finite `BaseFloat` is a rational, and the function
  only compares and negates the probabilities, both exact in `ℚ`).
  `std::sort` with the default lexicographic `std::pair` order is a sort
  with respect to a linear order, so its output is the unique sorted
  permutation of its input; it is modelled by `List.insertionSort` of
  that order, which computes the same list.
-/

namespace KaldiChain

/-- Model of `fst::StdArc` as used by this file: an input label, a
destination state and a (tropical) weight value. -/
structure StdArc (K : Type) where
  ilabel : Int
  nextstate : Nat
  weight : K

/-- Model of `fst::StdVectorFst`: a start state, the list of out-arc
lists (state `s` has out-arcs `arcsOf[s]`, and the number of states is
`arcsOf.length`), and the list of final weights (`none` = no final
state, i.e. infinite final weight). -/
structure StdVectorFst (K : Type) where
  start : Nat
  arcsOf : List (List (StdArc K))
  finals : List (Option K)

variable {K : Type} [LinearOrderedField K]

/-- Model of `fst.NumStates()`. -/
def StdVectorFst.numStates {K : Type} (f : StdVectorFst K) : Nat := f.arcsOf.length

/-- Model of arc iteration over state `s` (`fst::ArcIterator`): the
out-arcs of `s`, in order.  States out of range have no arcs. -/
def StdVectorFst.arcs {K : Type} (f : StdVectorFst K) (s : Nat) : List (StdArc K) :=
  f.arcsOf.getD s []

/-- Model of `fst.Final(s)`. -/
def StdVectorFst.final {K : Type} (f : StdVectorFst K) (s : Nat) : Option K :=
  f.finals.getD s none

/-- Value of `exp(-w)` for a possibly-infinite tropical weight `w`:
`exp(-inf) = 0` for `none`, and `E w` otherwise. -/
def expNegFinal (E : K → K) : Option K → K
  | none => 0
  | some w => E w

/-- Model of `DenominatorGraphTransition` (chain-den-graph.h): a
transition probability in the linear domain, a pdf-id, and the adjacent
HMM state. -/
structure DenominatorGraphTransition (K : Type) where
  transition_prob : K
  pdf_id : Int
  hmm_state : Nat

/-- The forward transition records that `SetTransitions` builds for the
arcs of state `s`: probability `exp(-weight)`, pdf-id `ilabel - 1`,
adjacent state `nextstate`. -/
def transitionsOut (E : K → K) (fst : StdVectorFst K) (s : Nat) :
    List (DenominatorGraphTransition K) :=
  (fst.arcs s).map (fun a =>
    { transition_prob := E a.weight, pdf_id := a.ilabel - 1, hmm_state := a.nextstate })

/-- The backward bucket of state `t` built by `SetTransitions`: for each
source state `s` in increasing order and each of its arcs (in order)
whose destination is `t`, a record with the same probability and pdf-id
and with adjacent state `s`. -/
def transitionsIn (E : K → K) (fst : StdVectorFst K) (t : Nat) :
    List (DenominatorGraphTransition K) :=
  (List.range fst.numStates).flatMap (fun s =>
    ((fst.arcs s).filter (fun a => a.nextstate == t)).map (fun a =>
      { transition_prob := E a.weight, pdf_id := a.ilabel - 1, hmm_state := s }))

/-- The flattened result of `SetTransitions`: the two `Int32Pair` offset
tables and the shared flat record array. -/
structure TransitionTables (K : Type) where
  forward_transitions : List (Nat × Nat)
  backward_transitions : List (Nat × Nat)
  transitions : List (DenominatorGraphTransition K)

/-- Concatenating a list of buckets onto an accumulator `acc` (the flat
array built so far), recording each bucket's half-open offset range, as
the two offset-recording loops of `SetTransitions` do. -/
def flattenFrom {α : Type} : List (List α) → List α → (List (Nat × Nat) × List α)
  | [], acc => ([], acc)
  | b :: bs, acc =>
    let rest := flattenFrom bs (acc ++ b)
    ((acc.length, (acc ++ b).length) :: rest.1, rest.2)

/-- The per-state forward buckets `transitions_out` of `SetTransitions`. -/
def outBuckets (E : K → K) (fst : StdVectorFst K) :
    List (List (DenominatorGraphTransition K)) :=
  (List.range fst.numStates).map (transitionsOut E fst)

/-- The per-state backward buckets `transitions_in` of `SetTransitions`. -/
def inBuckets (E : K → K) (fst : StdVectorFst K) :
    List (List (DenominatorGraphTransition K)) :=
  (List.range fst.numStates).map (transitionsIn E fst)

/-- The tables built by the second half of `SetTransitions`: all forward
buckets are appended to the flat array in state order (recording their
offsets), then all backward buckets. -/
def transitionTables (E : K → K) (fst : StdVectorFst K) : TransitionTables K :=
  let f := flattenFrom (outBuckets E fst) []
  let b := flattenFrom (inBuckets E fst) f.2
  { forward_transitions := f.1, backward_transitions := b.1, transitions := b.2 }

/-- The `KALDI_ASSERT(transition.pdf_id >= 0 && transition.pdf_id < num_pdfs)`
check of `SetTransitions`, over all arcs. -/
def arcsOK {K : Type} (fst : StdVectorFst K) (num_pdfs : Int) : Bool :=
  (List.range fst.numStates).all (fun s =>
    (fst.arcs s).all (fun a =>
      decide (0 ≤ a.ilabel - 1) && decide (a.ilabel - 1 < num_pdfs)))

/-- Model of `DenominatorGraph::SetTransitions`: the tables when every
arc passes the pdf-id assertion, `none` (construction aborted, no
object) otherwise. -/
def setTransitions (E : K → K) (fst : StdVectorFst K) (num_pdfs : Int) :
    Option (TransitionTables K) :=
  if arcsOK fst num_pdfs then some (transitionTables E fst) else none

/-- Half-open slice `[p.1, p.2)` of a list, i.e. the records a
`(first, second)` offset pair denotes inside the flat array. -/
def sliceP {α : Type} (l : List α) (p : Nat × Nat) : List α :=
  (l.drop p.1).take (p.2 - p.1)

/-- Sum of the lengths of a list of buckets. -/
def sumLens {α : Type} (bs : List (List α)) : Nat := (bs.map List.length).sum

/-- Total number of arcs of the automaton. -/
def numArcs {K : Type} (fst : StdVectorFst K) : Nat :=
  ((List.range fst.numStates).map (fun s => (fst.arcs s).length)).sum

theorem flattenFrom_snd {α : Type} (bs : List (List α)) (acc : List α) :
    (flattenFrom bs acc).2 = acc ++ bs.flatten := by
  induction bs generalizing acc with
  | nil => simp [flattenFrom]
  | cons b bs ih => simp [flattenFrom, ih, List.append_assoc]

theorem flattenFrom_fst_length {α : Type} (bs : List (List α)) (acc : List α) :
    (flattenFrom bs acc).1.length = bs.length := by
  induction bs generalizing acc with
  | nil => simp [flattenFrom]
  | cons b bs ih => simp [flattenFrom, ih]

theorem flattenFrom_fst_getD {α : Type} (bs : List (List α)) (acc : List α)
    (i : Nat) (h : i < bs.length) :
    (flattenFrom bs acc).1.getD i (0, 0) =
      (acc.length + sumLens (bs.take i), acc.length + sumLens (bs.take (i + 1))) := by
  induction bs generalizing acc i with
  | nil => simp at h
  | cons b bs ih =>
    cases i with
    | zero => simp [flattenFrom, sumLens]
    | succ i =>
      have h' : i < bs.length := by simpa using h
      simp only [flattenFrom, List.getD_cons_succ]
      rw [ih (acc ++ b) i h']
      simp [sumLens, List.length_append]
      constructor <;> ring

theorem sumLens_take_le {α : Type} (bs : List (List α)) (i : Nat) :
    sumLens (bs.take i) ≤ sumLens bs := by
  induction bs generalizing i with
  | nil => simp
  | cons b bs ih =>
    cases i with
    | zero => simp [sumLens]
    | succ i => simpa [sumLens] using ih i

theorem length_flatten_eq_sumLens {α : Type} (bs : List (List α)) :
    bs.flatten.length = sumLens bs := by
  simp [sumLens, List.length_flatten]

theorem flatten_drop_sumLens {α : Type} (bs : List (List α)) (i : Nat) :
    bs.flatten.drop (sumLens (bs.take i)) = (bs.drop i).flatten := by
  induction bs generalizing i with
  | nil => simp
  | cons b bs ih =>
    cases i with
    | zero => simp [sumLens]
    | succ i =>
      simp only [List.take_succ_cons, List.flatten_cons, List.drop_succ_cons]
      rw [sumLens, List.map_cons, List.sum_cons, ← List.drop_drop, List.drop_left]
      simpa [sumLens] using ih i

theorem getD_eq_getElem {α : Type} (bs : List α) (d : α) (i : Nat) (h : i < bs.length) :
    bs.getD i d = bs[i] := by
  rw [List.getD_eq_getElem?_getD, List.getElem?_eq_getElem h]
  rfl

theorem sumLens_take_succ {α : Type} (bs : List (List α)) (i : Nat) (h : i < bs.length) :
    sumLens (bs.take (i + 1)) = sumLens (bs.take i) + (bs.getD i []).length := by
  induction bs generalizing i with
  | nil => simp at h
  | cons b bs ih =>
    cases i with
    | zero => simp [sumLens]
    | succ i =>
      have h' : i < bs.length := by simpa using h
      simp only [List.take_succ_cons, sumLens, List.map_cons, List.sum_cons,
        List.getD_cons_succ]
      rw [← sumLens, ← sumLens, ih i h']
      omega

theorem slice_flatten {α : Type} (bs : List (List α)) (i : Nat) (h : i < bs.length) :
    sliceP bs.flatten (sumLens (bs.take i), sumLens (bs.take (i + 1))) = bs.getD i [] := by
  have hdrop := flatten_drop_sumLens bs i
  have hds : bs.drop i = bs.getD i [] :: bs.drop (i + 1) := by
    rw [getD_eq_getElem _ _ _ h]
    exact (List.drop_eq_getElem_cons h)
  rw [sliceP, hdrop, sumLens_take_succ bs i h, hds]
  simp

theorem sliceP_append_left {α : Type} (l₁ l₂ : List α) (a b : Nat) (hb : b ≤ l₁.length)
    (hab : a ≤ b) :
    sliceP (l₁ ++ l₂) (a, b) = sliceP l₁ (a, b) := by
  unfold sliceP
  rw [List.drop_append_of_le_length (le_trans hab hb),
    List.take_append_of_le_length]
  simp
  omega

theorem sliceP_append_right {α : Type} (l₁ l₂ : List α) (a b : Nat) :
    sliceP (l₁ ++ l₂) (l₁.length + a, l₁.length + b) = sliceP l₂ (a, b) := by
  unfold sliceP
  rw [← List.drop_drop, List.drop_left]
  congr 1
  omega

theorem outBuckets_length (E : K → K) (fst : StdVectorFst K) :
    (outBuckets E fst).length = fst.numStates := by
  simp [outBuckets]

theorem inBuckets_length (E : K → K) (fst : StdVectorFst K) :
    (inBuckets E fst).length = fst.numStates := by
  simp [inBuckets]

theorem getD_map_range {α : Type} (f : Nat → α) (n s : Nat) (d : α) (h : s < n) :
    ((List.range n).map f).getD s d = f s := by
  rw [getD_eq_getElem _ _ _ (by simpa using h)]
  simp [h]

theorem transitions_eq (E : K → K) (fst : StdVectorFst K) :
    (transitionTables E fst).transitions =
      (outBuckets E fst).flatten ++ (inBuckets E fst).flatten := by
  show (flattenFrom (inBuckets E fst) (flattenFrom (outBuckets E fst) []).2).2 = _
  rw [flattenFrom_snd, flattenFrom_snd]
  simp

theorem forward_getD (E : K → K) (fst : StdVectorFst K) (s : Nat)
    (h : s < fst.numStates) :
    (transitionTables E fst).forward_transitions.getD s (0, 0) =
      (sumLens ((outBuckets E fst).take s), sumLens ((outBuckets E fst).take (s + 1))) := by
  show (flattenFrom (outBuckets E fst) []).1.getD s (0, 0) = _
  rw [flattenFrom_fst_getD _ _ s (by rw [outBuckets_length]; exact h)]
  simp

theorem backward_getD (E : K → K) (fst : StdVectorFst K) (s : Nat)
    (h : s < fst.numStates) :
    (transitionTables E fst).backward_transitions.getD s (0, 0) =
      (sumLens (outBuckets E fst) + sumLens ((inBuckets E fst).take s),
       sumLens (outBuckets E fst) + sumLens ((inBuckets E fst).take (s + 1))) := by
  show (flattenFrom (inBuckets E fst) (flattenFrom (outBuckets E fst) []).2).1.getD s (0, 0) = _
  rw [flattenFrom_fst_getD _ _ s (by rw [inBuckets_length]; exact h), flattenFrom_snd]
  simp [length_flatten_eq_sumLens, sumLens]

theorem sumLens_outBuckets (E : K → K) (fst : StdVectorFst K) :
    sumLens (outBuckets E fst) = numArcs fst := by
  unfold sumLens outBuckets numArcs
  rw [List.map_map]
  congr 1
  apply List.map_congr_left
  intro s _
  simp [transitionsOut]

theorem forward_slice (E : K → K) (fst : StdVectorFst K) (s : Nat)
    (h : s < fst.numStates) :
    sliceP (transitionTables E fst).transitions
        ((transitionTables E fst).forward_transitions.getD s (0, 0)) =
      transitionsOut E fst s := by
  rw [forward_getD E fst s h, transitions_eq]
  have hlt : s < (outBuckets E fst).length := by rw [outBuckets_length]; exact h
  rw [sliceP_append_left _ _ _ _
      (by rw [length_flatten_eq_sumLens]; exact sumLens_take_le _ _)
      (by rw [sumLens_take_succ _ _ hlt]; omega)]
  rw [slice_flatten _ _ hlt, outBuckets, getD_map_range _ _ _ _ h]

theorem backward_slice (E : K → K) (fst : StdVectorFst K) (s : Nat)
    (h : s < fst.numStates) :
    sliceP (transitionTables E fst).transitions
        ((transitionTables E fst).backward_transitions.getD s (0, 0)) =
      transitionsIn E fst s := by
  rw [backward_getD E fst s h, transitions_eq]
  have hlt : s < (inBuckets E fst).length := by rw [inBuckets_length]; exact h
  have hF : (outBuckets E fst).flatten.length = sumLens (outBuckets E fst) :=
    length_flatten_eq_sumLens _
  rw [← hF, sliceP_append_right]
  rw [slice_flatten _ _ hlt, inBuckets, getD_map_range _ _ _ _ h]

theorem sum_map_range {M : Type} [AddCommMonoid M] (f : Nat → M) (n : Nat) :
    ((List.range n).map f).sum = ∑ i ∈ Finset.range n, f i := by
  induction n with
  | zero => simp
  | succ n ih =>
    rw [List.range_succ, List.map_append, List.sum_append, Finset.sum_range_succ, ih]
    simp

theorem sum_filter_nextstate {K : Type} (l : List (StdArc K)) (N : Nat)
    (h : ∀ a ∈ l, a.nextstate < N) :
    (∑ t ∈ Finset.range N, (l.filter (fun a => a.nextstate == t)).length) = l.length := by
  induction l with
  | nil => simp
  | cons a l ih =>
    have ha : a.nextstate < N := h a (List.mem_cons_self a l)
    have hstep : ∀ t, ((a :: l).filter (fun x => x.nextstate == t)).length =
        (if a.nextstate = t then 1 else 0) +
          (l.filter (fun x => x.nextstate == t)).length := by
      intro t
      by_cases hh : a.nextstate = t <;> simp [List.filter_cons, hh] <;> omega
    rw [Finset.sum_congr rfl (fun t _ => hstep t), Finset.sum_add_distrib,
      Finset.sum_ite_eq, ih (fun x hx => h x (List.mem_cons_of_mem a hx))]
    simp [Finset.mem_range.mpr ha]
    omega

theorem transitionsIn_length (E : K → K) (fst : StdVectorFst K) (t : Nat) :
    (transitionsIn E fst t).length =
      ∑ s ∈ Finset.range fst.numStates,
        ((fst.arcs s).filter (fun a => a.nextstate == t)).length := by
  rw [transitionsIn, List.length_flatMap, sum_map_range]
  simp

theorem sumLens_inBuckets (E : K → K) (fst : StdVectorFst K)
    (hdest : ∀ s < fst.numStates, ∀ a ∈ fst.arcs s, a.nextstate < fst.numStates) :
    sumLens (inBuckets E fst) = numArcs fst := by
  unfold sumLens inBuckets
  rw [List.map_map]
  have hc : (List.length ∘ transitionsIn E fst) =
      fun t => (transitionsIn E fst t).length := rfl
  rw [hc, sum_map_range]
  rw [Finset.sum_congr rfl (fun t _ => transitionsIn_length E fst t), Finset.sum_comm]
  rw [numArcs, sum_map_range]
  exact Finset.sum_congr rfl (fun s hs =>
    sum_filter_nextstate _ _ (hdest s (Finset.mem_range.mp hs)))

theorem take_full {α : Type} (l : List α) : l.take l.length = l := by
  simp

/-- The quantity `tot_prob` computed by `SetInitialProbs` for state `s`:
`exp(-fst.Final(s).Value())` plus the sum of `exp(-weight)` over the
out-arcs of `s`. -/
def totProb (E : K → K) (fst : StdVectorFst K) (s : Nat) : K :=
  expNegFinal E (fst.final s) + ((fst.arcs s).map (fun a => E a.weight)).sum

/-- The per-state factor `normalizing_factor(s) = 1.0 / tot_prob`. -/
def normalizingFactor (E : K → K) (fst : StdVectorFst K) (s : Nat) : K :=
  1 / totProb E fst s

/-- The `KALDI_ASSERT(tot_prob > 0.0 && tot_prob < 100.0)` of
`SetInitialProbs`, over all states: construction aborts (fails fast,
no object produced) exactly when this predicate is false. -/
def initProbsCheckOK (E : K → K) (fst : StdVectorFst K) : Prop :=
  ∀ s < fst.numStates, 0 < totProb E fst s ∧ totProb E fst s < 100

/-- The initial occupancy vector of `SetInitialProbs`: mass `1.0` on the
start state, `0` elsewhere. -/
def initialDist (fst : StdVectorFst K) : Nat → K :=
  fun t => if t = fst.start then 1 else 0

/-- One propagation sweep of `SetInitialProbs`: for each state `s`,
`prob = cur_prob(s) * normalizing_factor(s)` is pushed along each
out-arc of `s` into `next_prob(arc.nextstate)` weighted by
`exp(-arc.weight)`. -/
def propagate (E : K → K) (fst : StdVectorFst K) (cur : Nat → K) : Nat → K :=
  fun t =>
    ∑ s ∈ Finset.range fst.numStates,
      (((fst.arcs s).filter (fun a => a.nextstate == t)).map
        (fun a => cur s * normalizingFactor E fst s * E a.weight)).sum

/-- Sum of the entries `0, ..., n-1` of an occupancy vector
(`Vector::Sum()` on a vector of dimension `n`). -/
def vecSum (f : Nat → K) (n : Nat) : K := ∑ t ∈ Finset.range n, f t

/-- One full iteration of the propagation loop of `SetInitialProbs`:
propagate, then rescale by `1.0 / cur_prob.Sum()`. -/
def iterStep (E : K → K) (fst : StdVectorFst K) (cur : Nat → K) : Nat → K :=
  fun t =>
    propagate E fst cur t * (1 / vecSum (propagate E fst cur) fst.numStates)

/-- The occupancy vector `cur_prob` after `n` iterations of the loop of
`SetInitialProbs` (`n = 0` is the state before the loop). -/
def curProbAfter (E : K → K) (fst : StdVectorFst K) : Nat → Nat → K
  | 0 => initialDist fst
  | n + 1 => iterStep E fst (curProbAfter E fst n)

/-- The fixed iteration count `num_iters = 100` of `SetInitialProbs`. -/
def numIters : Nat := 100

/-- The vector returned by `SetInitialProbs` (before narrowing to
`BaseFloat`): the average `avg_prob` of the current vector over the 100
iterations, i.e. `(1/100) * (cur_1 + ... + cur_100)` entrywise. -/
def avgProb (E : K → K) (fst : StdVectorFst K) : Nat → K :=
  fun t => ∑ i ∈ Finset.range numIters,
    (1 / (numIters : K)) * curProbAfter E fst (i + 1) t

theorem expNegFinal_nonneg (E : K → K) (hE : ∀ x, 0 < E x) (o : Option K) :
    0 ≤ expNegFinal E o := by
  cases o with
  | none => simp [expNegFinal]
  | some w => exact le_of_lt (hE w)

theorem totProb_nonneg (E : K → K) (hE : ∀ x, 0 < E x) (fst : StdVectorFst K) (s : Nat) :
    0 ≤ totProb E fst s := by
  unfold totProb
  have h1 : (0:K) ≤ ((fst.arcs s).map (fun a => E a.weight)).sum := by
    apply List.sum_nonneg
    intro x hx
    obtain ⟨a, _, rfl⟩ := List.mem_map.mp hx
    exact le_of_lt (hE a.weight)
  have h2 := expNegFinal_nonneg E hE (fst.final s)
  linarith

theorem normalizingFactor_nonneg (E : K → K) (hE : ∀ x, 0 < E x)
    (fst : StdVectorFst K) (s : Nat) : 0 ≤ normalizingFactor E fst s :=
  one_div_nonneg.mpr (totProb_nonneg E hE fst s)

theorem propagate_nonneg (E : K → K) (hE : ∀ x, 0 < E x) (fst : StdVectorFst K)
    (cur : Nat → K) (hcur : ∀ t, 0 ≤ cur t) (t : Nat) :
    0 ≤ propagate E fst cur t := by
  apply Finset.sum_nonneg
  intro s _
  apply List.sum_nonneg
  intro x hx
  obtain ⟨a, _, rfl⟩ := List.mem_map.mp hx
  have h1 := normalizingFactor_nonneg E hE fst s
  have h2 := hcur s
  have h3 := le_of_lt (hE a.weight)
  positivity

theorem vecSum_nonneg (f : Nat → K) (n : Nat) (hf : ∀ t, 0 ≤ f t) :
    0 ≤ vecSum f n :=
  Finset.sum_nonneg (fun t _ => hf t)

theorem curProbAfter_nonneg (E : K → K) (hE : ∀ x, 0 < E x) (fst : StdVectorFst K)
    (n t : Nat) : 0 ≤ curProbAfter E fst n t := by
  induction n generalizing t with
  | zero =>
    simp only [curProbAfter, initialDist]
    by_cases h : t = fst.start <;> simp [h]
  | succ n ih =>
    simp only [curProbAfter, iterStep]
    have h1 := propagate_nonneg E hE fst (curProbAfter E fst n) ih t
    have h2 : (0:K) ≤ 1 / vecSum (propagate E fst (curProbAfter E fst n)) fst.numStates :=
      one_div_nonneg.mpr (vecSum_nonneg _ _
        (propagate_nonneg E hE fst (curProbAfter E fst n) ih))
    positivity

theorem avgProb_nonneg (E : K → K) (hE : ∀ x, 0 < E x) (fst : StdVectorFst K) (t : Nat) :
    0 ≤ avgProb E fst t := by
  apply Finset.sum_nonneg
  intro i _
  have h1 := curProbAfter_nonneg E hE fst (i + 1) t
  have h2 : (0:K) ≤ 1 / (numIters : K) := by positivity
  positivity

theorem vecSum_initialDist (fst : StdVectorFst K) (h : fst.start < fst.numStates) :
    vecSum (initialDist fst) fst.numStates = 1 := by
  unfold vecSum initialDist
  rw [Finset.sum_ite_eq' (Finset.range fst.numStates) fst.start (fun _ => (1:K))]
  simp [Finset.mem_range.mpr h]

theorem vecSum_mul_const (f : Nat → K) (n : Nat) (c : K) :
    vecSum (fun t => f t * c) n = vecSum f n * c := by
  unfold vecSum
  rw [Finset.sum_mul]

theorem vecSum_iterStep (E : K → K) (fst : StdVectorFst K) (cur : Nat → K)
    (hpos : 0 < vecSum (propagate E fst cur) fst.numStates) :
    vecSum (iterStep E fst cur) fst.numStates = 1 := by
  unfold iterStep
  rw [vecSum_mul_const]
  field_simp

theorem exists_pos_entry (f : Nat → K) (n : Nat) (hf : ∀ t, 0 ≤ f t)
    (hsum : vecSum f n = 1) : ∃ s, s < n ∧ 0 < f s := by
  by_contra h
  push_neg at h
  have hz : vecSum f n ≤ 0 := by
    apply Finset.sum_nonpos
    intro t ht
    exact h t (Finset.mem_range.mp ht)
  rw [hsum] at hz
  linarith

theorem vecSum_propagate_pos (E : K → K) (hE : ∀ x, 0 < E x) (fst : StdVectorFst K)
    (hmass : ∀ s < fst.numStates, 0 < totProb E fst s)
    (harcs : ∀ s < fst.numStates, fst.arcs s ≠ [])
    (hdest : ∀ s < fst.numStates, ∀ a ∈ fst.arcs s, a.nextstate < fst.numStates)
    (cur : Nat → K) (hcur : ∀ t, 0 ≤ cur t)
    (hsum : vecSum cur fst.numStates = 1) :
    0 < vecSum (propagate E fst cur) fst.numStates := by
  obtain ⟨s, hs, hspos⟩ := exists_pos_entry cur fst.numStates hcur hsum
  obtain ⟨a, ha⟩ := List.exists_mem_of_ne_nil _ (harcs s hs)
  set t := a.nextstate with hta
  have htlt : t < fst.numStates := hdest s hs a ha
  have hnorm : 0 < normalizingFactor E fst s := one_div_pos.mpr (hmass s hs)
  have hterm : (0:K) < cur s * normalizingFactor E fst s * E a.weight := by
    have := hE a.weight
    positivity
  have hmem : cur s * normalizingFactor E fst s * E a.weight ∈
      ((fst.arcs s).filter (fun x => x.nextstate == t)).map
        (fun x => cur s * normalizingFactor E fst s * E x.weight) := by
    apply List.mem_map.mpr
    refine ⟨a, ?_, rfl⟩
    apply List.mem_filter.mpr
    exact ⟨ha, by simp⟩
  have hlist : (0:K) < (((fst.arcs s).filter (fun x => x.nextstate == t)).map
      (fun x => cur s * normalizingFactor E fst s * E x.weight)).sum := by
    have hle := List.single_le_sum (l := ((fst.arcs s).filter (fun x => x.nextstate == t)).map
        (fun x => cur s * normalizingFactor E fst s * E x.weight)) ?hnn _ hmem
    · linarith
    case hnn =>
      intro x hx
      obtain ⟨b, _, rfl⟩ := List.mem_map.mp hx
      have h1 := hcur s
      have h2 := normalizingFactor_nonneg E hE fst s
      have h3 := le_of_lt (hE b.weight)
      positivity
  have hprop : (0:K) < propagate E fst cur t := by
    unfold propagate
    have hnn : ∀ u ∈ Finset.range fst.numStates,
        (0:K) ≤ (((fst.arcs u).filter (fun x => x.nextstate == t)).map
          (fun x => cur u * normalizingFactor E fst u * E x.weight)).sum := by
      intro u _
      apply List.sum_nonneg
      intro x hx
      obtain ⟨b, _, rfl⟩ := List.mem_map.mp hx
      have h1 := hcur u
      have h2 := normalizingFactor_nonneg E hE fst u
      have h3 := le_of_lt (hE b.weight)
      positivity
    have hle := Finset.single_le_sum hnn (Finset.mem_range.mpr hs)
    linarith
  have hnnall : ∀ u, 0 ≤ propagate E fst cur u := propagate_nonneg E hE fst cur hcur
  have hle := Finset.single_le_sum
    (f := fun u => propagate E fst cur u)
    (fun u _ => hnnall u) (Finset.mem_range.mpr htlt)
  unfold vecSum
  linarith

theorem curProbAfter_sum_one (E : K → K) (hE : ∀ x, 0 < E x) (fst : StdVectorFst K)
    (hstart : fst.start < fst.numStates)
    (hmass : ∀ s < fst.numStates, 0 < totProb E fst s)
    (harcs : ∀ s < fst.numStates, fst.arcs s ≠ [])
    (hdest : ∀ s < fst.numStates, ∀ a ∈ fst.arcs s, a.nextstate < fst.numStates)
    (n : Nat) : vecSum (curProbAfter E fst n) fst.numStates = 1 := by
  induction n with
  | zero => exact vecSum_initialDist fst hstart
  | succ n ih =>
    show vecSum (iterStep E fst (curProbAfter E fst n)) fst.numStates = 1
    apply vecSum_iterStep
    exact vecSum_propagate_pos E hE fst hmass harcs hdest _
      (curProbAfter_nonneg E hE fst n) ih

theorem vecSum_avgProb (E : K → K) (hE : ∀ x, 0 < E x) (fst : StdVectorFst K)
    (hstart : fst.start < fst.numStates)
    (hmass : ∀ s < fst.numStates, 0 < totProb E fst s)
    (harcs : ∀ s < fst.numStates, fst.arcs s ≠ [])
    (hdest : ∀ s < fst.numStates, ∀ a ∈ fst.arcs s, a.nextstate < fst.numStates) :
    vecSum (avgProb E fst) fst.numStates = 1 := by
  unfold vecSum avgProb
  rw [Finset.sum_comm]
  have hinner : ∀ i ∈ Finset.range numIters,
      (∑ t ∈ Finset.range fst.numStates,
        (1 / (numIters : K)) * curProbAfter E fst (i + 1) t) = 1 / (numIters : K) := by
    intro i _
    rw [← Finset.mul_sum]
    have hs := curProbAfter_sum_one E hE fst hstart hmass harcs hdest (i + 1)
    unfold vecSum at hs
    rw [hs, mul_one]
  rw [Finset.sum_congr rfl hinner, Finset.sum_const, Finset.card_range]
  rw [nsmul_eq_mul]
  have hn : (numIters : K) ≠ 0 := by
    unfold numIters
    norm_num
  field_simp

/-- The reverse adjacency lists built at the start of
`NumStatesThatCanReach`: `reverse_transitions[t]` collects, for each
state `s` in increasing order and one entry per arc of `s` (in order)
with destination `t`, the source state `s`. -/
def revTransitions {K : Type} (fst : StdVectorFst K) : Nat → List Nat :=
  fun t => (List.range fst.numStates).flatMap (fun s =>
    ((fst.arcs s).filter (fun a => a.nextstate == t)).map (fun _ => s))

/-- Processing the predecessor list of one popped state in the loop of
`NumStatesThatCanReach`: every not-yet-reachable predecessor is marked,
pushed on the queue and counted.  (The `true` default of `getD` is never
exercised: predecessors produced by `revTransitions` are always in
range; it merely makes out-of-range reads skip, never push.) -/
def processPreds : List Nat → List Nat → List Bool → Nat → (List Nat × List Bool × Nat)
  | [], queue, can, cnt => (queue, can, cnt)
  | p :: ps, queue, can, cnt =>
    if can.getD p true then processPreds ps queue can cnt
    else processPreds ps (p :: queue) (can.set p true) (cnt + 1)

/-- The `while (!queue.empty())` loop of `NumStatesThatCanReach`,
popping from the back of the C++ vector (= the head of the model's
queue list, which is pushed at the head).  The loop always terminates
because each iteration strictly decreases
`2 * (#unvisited) + (queue length)`; the explicit `fuel` argument is an
upper bound on that measure, so the fueled function equals the loop. -/
def bfsLoop (rev : Nat → List Nat) : Nat → List Nat → List Bool → Nat → (List Bool × Nat)
  | 0, _, can, cnt => (can, cnt)
  | _ + 1, [], can, cnt => (can, cnt)
  | fuel + 1, st :: rest, can, cnt =>
    let r := processPreds (rev st) rest can cnt
    bfsLoop rev fuel r.1 r.2.1 r.2.2

/-- Model of `NumStatesThatCanReach(fst, dest_state)`: mark `dest`
visited, seed the queue with it, set the count to 1, and run the
reverse breadth-first loop. -/
def numStatesThatCanReach {K : Type} (fst : StdVectorFst K) (dest : Nat) : Nat :=
  let n := fst.numStates
  (bfsLoop (revTransitions fst) (2 * n + 1) [dest]
    ((List.replicate n false).set dest true) 1).2

/-- One forward step of the automaton: some arc of `s` leads to `t`. -/
def Step {K : Type} (fst : StdVectorFst K) (s t : Nat) : Prop :=
  ∃ a ∈ fst.arcs s, a.nextstate = t

/-- State `t` is reachable from state `s` by zero or more forward arcs. -/
def Reaches {K : Type} (fst : StdVectorFst K) (s t : Nat) : Prop :=
  Relation.ReflTransGen (Step fst) s t

theorem getD_true_eq_false (l : List Bool) (p : Nat) (h : l.getD p true = false) :
    p < l.length ∧ l.getD p false = false := by
  by_cases hp : p < l.length
  · rw [getD_eq_getElem _ _ _ hp] at h
    rw [getD_eq_getElem _ _ _ hp]
    exact ⟨hp, h⟩
  · rw [List.getD_eq_getElem?_getD, List.getElem?_eq_none (le_of_not_lt hp)] at h
    simp at h

theorem getD_set_self_true (l : List Bool) (p : Nat) (hp : p < l.length) :
    (l.set p true).getD p false = true := by
  rw [List.getD_eq_getElem?_getD, List.getElem?_set_self (by simpa using hp)]
  rfl

theorem getD_set_other (l : List Bool) (p q : Nat) (b : Bool) (h : q ≠ p) :
    (l.set p b).getD q false = l.getD q false := by
  rw [List.getD_eq_getElem?_getD, List.getElem?_set_ne (fun hc => h hc.symm),
    ← List.getD_eq_getElem?_getD]

theorem getD_set_mono (l : List Bool) (p t : Nat) (h : l.getD t false = true) :
    (l.set p true).getD t false = true := by
  by_cases hq : t = p
  · subst hq
    by_cases hp : t < l.length
    · exact getD_set_self_true l t hp
    · rw [List.set_eq_of_length_le (le_of_not_lt hp)]
      exact h
  · rw [getD_set_other l p t true hq]
    exact h

theorem count_true_set (l : List Bool) (p : Nat) (hp : p < l.length)
    (h : l.getD p false = false) :
    (l.set p true).count true = l.count true + 1 := by
  have helem : l[p] = false := by
    rw [← getD_eq_getElem l false p hp]
    exact h
  rw [List.count_set true true l p hp]
  simp [helem]

theorem count_false_set (l : List Bool) (p : Nat) (hp : p < l.length)
    (h : l.getD p false = false) :
    (l.set p true).count false + 1 = l.count false := by
  have helem : l[p] = false := by
    rw [← getD_eq_getElem l false p hp]
    exact h
  have hpos : 1 ≤ l.count false := by
    have : (false : Bool) ∈ l := by
      rw [← helem]
      exact l.getElem_mem hp
    simpa [List.count_pos_iff] using this
  rw [List.count_set true false l p hp]
  simp [helem]
  omega

theorem pp_can_length (ps queue : List Nat) (can : List Bool) (cnt : Nat) :
    (processPreds ps queue can cnt).2.1.length = can.length := by
  induction ps generalizing queue can cnt with
  | nil => rfl
  | cons p ps ih =>
    simp only [processPreds]
    split
    · exact ih queue can cnt
    · rw [ih]
      simp

theorem pp_mono (ps queue : List Nat) (can : List Bool) (cnt : Nat) (t : Nat)
    (h : can.getD t false = true) :
    (processPreds ps queue can cnt).2.1.getD t false = true := by
  induction ps generalizing queue can cnt with
  | nil => exact h
  | cons p ps ih =>
    simp only [processPreds]
    split
    · exact ih queue can cnt h
    · exact ih _ _ _ (getD_set_mono can p t h)

theorem pp_sound (ps queue : List Nat) (can : List Bool) (cnt : Nat) (t : Nat)
    (h : (processPreds ps queue can cnt).2.1.getD t false = true) :
    can.getD t false = true ∨ t ∈ ps := by
  induction ps generalizing queue can cnt with
  | nil => exact Or.inl h
  | cons p ps ih =>
    simp only [processPreds] at h
    by_cases hc : can.getD p true
    · rw [if_pos hc] at h
      rcases ih queue can cnt h with h1 | h2
      · exact Or.inl h1
      · exact Or.inr (List.mem_cons_of_mem p h2)
    · rw [if_neg hc] at h
      rcases ih _ _ _ h with h1 | h2
      · by_cases hq : t = p
        · exact Or.inr (hq ▸ List.mem_cons_self p ps)
        · rw [getD_set_other can p t true hq] at h1
          exact Or.inl h1
      · exact Or.inr (List.mem_cons_of_mem p h2)

theorem pp_marks (ps queue : List Nat) (can : List Bool) (cnt : Nat) (p : Nat)
    (hp : p ∈ ps) (hlt : p < can.length) :
    (processPreds ps queue can cnt).2.1.getD p false = true := by
  induction ps generalizing queue can cnt with
  | nil => simp at hp
  | cons q ps ih =>
    simp only [processPreds]
    rcases List.mem_cons.mp hp with rfl | hmem
    · by_cases hc : can.getD p true
      · rw [if_pos hc]
        have hv : can.getD p false = true := by
          rw [getD_eq_getElem _ _ _ hlt] at hc ⊢
          exact hc
        exact pp_mono ps queue can cnt p hv
      · rw [if_neg hc]
        exact pp_mono _ _ _ _ p (getD_set_self_true can p hlt)
    · split
      · exact ih queue can cnt hmem hlt
      · exact ih _ _ _ hmem (by simpa using hlt)

theorem pp_queue_mem (ps queue : List Nat) (can : List Bool) (cnt : Nat) (q : Nat)
    (h : q ∈ (processPreds ps queue can cnt).1) : q ∈ ps ∨ q ∈ queue := by
  induction ps generalizing queue can cnt with
  | nil => exact Or.inr h
  | cons p ps ih =>
    simp only [processPreds] at h
    by_cases hc : can.getD p true
    · rw [if_pos hc] at h
      rcases ih queue can cnt h with h1 | h2
      · exact Or.inl (List.mem_cons_of_mem p h1)
      · exact Or.inr h2
    · rw [if_neg hc] at h
      rcases ih _ _ _ h with h1 | h2
      · exact Or.inl (List.mem_cons_of_mem p h1)
      · rcases List.mem_cons.mp h2 with rfl | h3
        · exact Or.inl (List.mem_cons_self q ps)
        · exact Or.inr h3

theorem pp_rest_sub (ps queue : List Nat) (can : List Bool) (cnt : Nat) (q : Nat)
    (h : q ∈ queue) : q ∈ (processPreds ps queue can cnt).1 := by
  induction ps generalizing queue can cnt with
  | nil => exact h
  | cons p ps ih =>
    simp only [processPreds]
    split
    · exact ih queue can cnt h
    · exact ih _ _ _ (List.mem_cons_of_mem p h)

theorem pp_new_in_queue (ps queue : List Nat) (can : List Bool) (cnt : Nat) (t : Nat)
    (h : (processPreds ps queue can cnt).2.1.getD t false = true) :
    can.getD t false = true ∨ t ∈ (processPreds ps queue can cnt).1 := by
  induction ps generalizing queue can cnt with
  | nil => exact Or.inl h
  | cons p ps ih =>
    simp only [processPreds] at h ⊢
    by_cases hc : can.getD p true
    · rw [if_pos hc] at h ⊢
      exact ih queue can cnt h
    · rw [if_neg hc] at h ⊢
      rcases ih _ _ _ h with h1 | h2
      · by_cases hq : t = p
        · subst hq
          exact Or.inr (pp_rest_sub _ _ _ _ t (List.mem_cons_self t queue))
        · rw [getD_set_other can p t true hq] at h1
          exact Or.inl h1
      · exact Or.inr h2

theorem pp_cnt (ps queue : List Nat) (can : List Bool) (cnt : Nat)
    (h : cnt = can.count true) :
    (processPreds ps queue can cnt).2.2 = (processPreds ps queue can cnt).2.1.count true := by
  induction ps generalizing queue can cnt with
  | nil => exact h
  | cons p ps ih =>
    simp only [processPreds]
    by_cases hc : can.getD p true
    · rw [if_pos hc]
      exact ih queue can cnt h
    · rw [if_neg hc]
      obtain ⟨hlt, hfalse⟩ := getD_true_eq_false can p (by simpa using hc)
      exact ih _ _ _ (by rw [count_true_set can p hlt hfalse, h])

theorem pp_measure (ps queue : List Nat) (can : List Bool) (cnt : Nat) :
    2 * (processPreds ps queue can cnt).2.1.count false +
      (processPreds ps queue can cnt).1.length ≤
    2 * can.count false + queue.length := by
  induction ps generalizing queue can cnt with
  | nil => exact le_refl _
  | cons p ps ih =>
    simp only [processPreds]
    by_cases hc : can.getD p true
    · rw [if_pos hc]
      exact ih queue can cnt
    · rw [if_neg hc]
      obtain ⟨hlt, hfalse⟩ := getD_true_eq_false can p (by simpa using hc)
      have hcf := count_false_set can p hlt hfalse
      have := ih (p :: queue) (can.set p true) (cnt + 1)
      simp only [List.length_cons] at this
      omega

theorem bfs_can_length (rev : Nat → List Nat) (fuel : Nat) (queue : List Nat)
    (can : List Bool) (cnt : Nat) :
    (bfsLoop rev fuel queue can cnt).1.length = can.length := by
  induction fuel generalizing queue can cnt with
  | zero => rfl
  | succ fuel ih =>
    cases queue with
    | nil => rfl
    | cons st rest =>
      show (bfsLoop rev fuel _ _ _).1.length = _
      rw [ih, pp_can_length]

theorem bfs_mono (rev : Nat → List Nat) (fuel : Nat) (queue : List Nat)
    (can : List Bool) (cnt : Nat) (t : Nat) (h : can.getD t false = true) :
    (bfsLoop rev fuel queue can cnt).1.getD t false = true := by
  induction fuel generalizing queue can cnt with
  | zero => exact h
  | succ fuel ih =>
    cases queue with
    | nil => exact h
    | cons st rest =>
      exact ih _ _ _ (pp_mono (rev st) rest can cnt t h)

theorem bfs_cnt (rev : Nat → List Nat) (fuel : Nat) (queue : List Nat)
    (can : List Bool) (cnt : Nat) (h : cnt = can.count true) :
    (bfsLoop rev fuel queue can cnt).2 = (bfsLoop rev fuel queue can cnt).1.count true := by
  induction fuel generalizing queue can cnt with
  | zero => exact h
  | succ fuel ih =>
    cases queue with
    | nil => exact h
    | cons st rest =>
      exact ih _ _ _ (pp_cnt (rev st) rest can cnt h)

theorem bfs_sound (rev : Nat → List Nat) (P : Nat → Prop)
    (hPrev : ∀ t s, P t → s ∈ rev t → P s)
    (fuel : Nat) (queue : List Nat) (can : List Bool) (cnt : Nat)
    (hPq : ∀ q ∈ queue, P q) (hPc : ∀ t, can.getD t false = true → P t) :
    ∀ t, (bfsLoop rev fuel queue can cnt).1.getD t false = true → P t := by
  induction fuel generalizing queue can cnt with
  | zero => exact hPc
  | succ fuel ih =>
    cases queue with
    | nil => exact hPc
    | cons st rest =>
      apply ih
      · intro q hq
        rcases pp_queue_mem (rev st) rest can cnt q hq with h1 | h2
        · exact hPrev st q (hPq st (List.mem_cons_self st rest)) h1
        · exact hPq q (List.mem_cons_of_mem st h2)
      · intro t ht
        rcases pp_sound (rev st) rest can cnt t ht with h1 | h2
        · exact hPc t h1
        · exact hPrev st t (hPq st (List.mem_cons_self st rest)) h2

theorem bfs_closed (rev : Nat → List Nat) (fuel : Nat) (queue : List Nat)
    (can : List Bool) (cnt : Nat)
    (hrev : ∀ t, ∀ s ∈ rev t, s < can.length)
    (hq : ∀ q ∈ queue, can.getD q false = true)
    (hproc : ∀ t, can.getD t false = true → t ∉ queue →
      ∀ s ∈ rev t, can.getD s false = true)
    (hfuel : 2 * can.count false + queue.length ≤ fuel) :
    ∀ t, (bfsLoop rev fuel queue can cnt).1.getD t false = true →
      ∀ s ∈ rev t, (bfsLoop rev fuel queue can cnt).1.getD s false = true := by
  induction fuel generalizing queue can cnt with
  | zero =>
    have hqe : queue = [] := by
      cases queue with
      | nil => rfl
      | cons a b => simp at hfuel
    subst hqe
    intro t ht s hs
    exact hproc t ht (List.not_mem_nil t) s hs
  | succ fuel ih =>
    cases queue with
    | nil =>
      intro t ht s hs
      exact hproc t ht (List.not_mem_nil t) s hs
    | cons st rest =>
      show ∀ t, (bfsLoop rev fuel _ _ _).1.getD t false = true → _
      apply ih
      · intro t s hs
        rw [pp_can_length]
        exact hrev t s hs
      · intro q hq'
        rcases pp_queue_mem (rev st) rest can cnt q hq' with h1 | h2
        · exact pp_marks (rev st) rest can cnt q h1 (hrev st q h1)
        · exact pp_mono (rev st) rest can cnt q (hq q (List.mem_cons_of_mem st h2))
      · intro t ht htq s hs
        rcases pp_new_in_queue (rev st) rest can cnt t ht with h1 | h2
        · by_cases hts : t = st
          · subst hts
            exact pp_marks (rev t) rest can cnt s hs (hrev t s hs)
          · have htr : t ∉ rest := fun hc => htq (pp_rest_sub (rev st) rest can cnt t hc)
            have htqu : t ∉ st :: rest := by
              intro hc
              rcases List.mem_cons.mp hc with h3 | h3
              · exact hts h3
              · exact htr h3
            exact pp_mono (rev st) rest can cnt s (hproc t h1 htqu s hs)
        · exact absurd h2 htq
      · have := pp_measure (rev st) rest can cnt
        simp only [List.length_cons] at hfuel
        omega

theorem getD_replicate_false (n t : Nat) :
    (List.replicate n false).getD t false = false := by
  by_cases h : t < n
  · rw [getD_eq_getElem _ _ _ (by simpa using h)]
    simp
  · rw [List.getD_eq_getElem?_getD, List.getElem?_eq_none (by simpa using not_lt.mp h)]
    rfl

theorem can0_getD (n d t : Nat) (hd : d < n) :
    ((List.replicate n false).set d true).getD t false = true ↔ t = d := by
  constructor
  · intro h
    by_contra hne
    rw [getD_set_other _ _ _ _ hne, getD_replicate_false] at h
    exact Bool.false_ne_true h
  · rintro rfl
    exact getD_set_self_true _ _ (by simpa using hd)

theorem can0_count_true (n d : Nat) (hd : d < n) :
    ((List.replicate n false).set d true).count true = 1 := by
  rw [count_true_set _ _ (by simpa using hd) (getD_replicate_false n d)]
  simp [List.count_replicate]

theorem can0_count_false (n d : Nat) (hd : d < n) :
    ((List.replicate n false).set d true).count false = n - 1 := by
  have h := count_false_set (List.replicate n false) d (by simpa using hd)
    (getD_replicate_false n d)
  have hrep : (List.replicate n false).count false = n := by
    simp [List.count_replicate]
  omega

theorem mem_revTransitions {K : Type} (fst : StdVectorFst K) (t s : Nat) :
    s ∈ revTransitions fst t ↔ s < fst.numStates ∧ Step fst s t := by
  unfold revTransitions Step
  simp only [List.mem_flatMap, List.mem_map, List.mem_filter, List.mem_range]
  constructor
  · rintro ⟨u, hu, a, ⟨ha, hat⟩, rfl⟩
    exact ⟨hu, a, ha, by simpa using hat⟩
  · rintro ⟨hs, a, ha, hat⟩
    exact ⟨s, hs, a, ⟨ha, by simpa using hat⟩, rfl⟩

theorem step_lt {K : Type} (fst : StdVectorFst K) (s t : Nat) (h : Step fst s t) :
    s < fst.numStates := by
  by_contra hge
  obtain ⟨a, ha, _⟩ := h
  have : fst.arcs s = [] := by
    unfold StdVectorFst.arcs
    rw [List.getD_eq_getElem?_getD, List.getElem?_eq_none (not_lt.mp hge)]
    rfl
  rw [this] at ha
  exact List.not_mem_nil a ha

theorem numStatesThatCanReach_marked {K : Type} (fst : StdVectorFst K) (d : Nat)
    (hd : d < fst.numStates) (t : Nat) :
    (bfsLoop (revTransitions fst) (2 * fst.numStates + 1) [d]
        ((List.replicate fst.numStates false).set d true) 1).1.getD t false = true ↔
      (t < fst.numStates ∧ Reaches fst t d) := by
  set n := fst.numStates with hn
  set can0 := (List.replicate n false).set d true with hcan0
  have hlen0 : can0.length = n := by simp [hcan0]
  constructor
  · apply bfs_sound (revTransitions fst) (fun t => t < n ∧ Reaches fst t d)
    · intro u s hu hs
      rw [mem_revTransitions] at hs
      exact ⟨hs.1, Relation.ReflTransGen.head hs.2 hu.2⟩
    · intro q hq
      rcases List.mem_singleton.mp hq with rfl
      exact ⟨hd, Relation.ReflTransGen.refl⟩
    · intro u hu
      rw [can0_getD n d u hd] at hu
      subst hu
      exact ⟨hd, Relation.ReflTransGen.refl⟩
  · rintro ⟨htn, hreach⟩
    have hclosed := bfs_closed (revTransitions fst) (2 * n + 1) [d] can0 1
      (by
        intro u s hs
        rw [hlen0]
        exact (mem_revTransitions fst u s).mp hs |>.1)
      (by
        intro q hq
        have hqd : q = d := List.mem_singleton.mp hq
        rw [hqd, can0_getD n d d hd])
      (by
        intro u hu huq s hs
        rw [can0_getD n d u hd] at hu
        subst hu
        exact absurd (List.mem_singleton.mpr rfl) huq)
      (by
        have := can0_count_false n d hd
        rw [this]
        simp only [List.length_singleton]
        omega)
    have hdmarked : (bfsLoop (revTransitions fst) (2 * n + 1) [d] can0 1).1.getD d false
        = true := by
      apply bfs_mono
      rw [can0_getD n d d hd]
    induction hreach using Relation.ReflTransGen.head_induction_on with
    | refl => exact hdmarked
    | head hstep htail ih =>
      rename_i a c
      have hc : (bfsLoop (revTransitions fst) (2 * n + 1) [d] can0 1).1.getD c false
          = true := by
        rcases Relation.ReflTransGen.cases_head htail with rfl | ⟨u, hu, _⟩
        · exact hdmarked
        · exact ih (step_lt fst c u hu)
      apply hclosed c hc
      rw [mem_revTransitions]
      exact ⟨step_lt fst a c hstep, hstep⟩

theorem count_true_eq_sum (l : List Bool) :
    l.count true = ∑ i ∈ Finset.range l.length, if l.getD i false = true then 1 else 0 := by
  induction l with
  | nil => simp
  | cons b t ih =>
    rw [List.length_cons, Finset.sum_range_succ']
    have h0 : (b :: t).getD 0 false = b := rfl
    have hs : ∀ i, (b :: t).getD (i + 1) false = t.getD i false := fun i => rfl
    simp only [h0, hs]
    rw [← ih]
    cases b <;> simp [List.count_cons]

theorem count_true_eq_card (l : List Bool) :
    l.count true =
      ((Finset.range l.length).filter (fun i => l.getD i false = true)).card := by
  rw [count_true_eq_sum]
  rw [Finset.card_filter]

theorem numStatesThatCanReach_eq_ncard {K : Type} (fst : StdVectorFst K) (d : Nat)
    (hd : d < fst.numStates) :
    numStatesThatCanReach fst d =
      Set.ncard {s : Nat | s < fst.numStates ∧ Reaches fst s d} := by
  unfold numStatesThatCanReach
  set n := fst.numStates with hn
  set can0 := (List.replicate n false).set d true with hcan0
  set R := bfsLoop (revTransitions fst) (2 * n + 1) [d] can0 1 with hR
  have hcnt : R.2 = R.1.count true := by
    rw [hR]
    exact bfs_cnt _ _ _ _ _ (can0_count_true n d hd).symm
  have hlen : R.1.length = n := by
    rw [hR, bfs_can_length]
    simp [hcan0]
  have hset : {s : Nat | s < n ∧ Reaches fst s d} =
      ((Finset.range n).filter (fun i => R.1.getD i false = true) : Finset Nat) := by
    ext s
    simp only [Set.mem_setOf_eq, Finset.coe_filter, Finset.mem_range]
    constructor
    · intro hs
      exact ⟨hs.1, (numStatesThatCanReach_marked fst d hd s).mpr hs⟩
    · intro hs
      exact (numStatesThatCanReach_marked fst d hd s).mp hs.2
  show R.2 = _
  rw [hcnt, hset, Set.ncard_coe_Finset, count_true_eq_card, hlen]

theorem numStatesThatCanReach_pos {K : Type} (fst : StdVectorFst K) (d : Nat)
    (hd : d < fst.numStates) : 1 ≤ numStatesThatCanReach fst d := by
  unfold numStatesThatCanReach
  set n := fst.numStates with hn
  set can0 := (List.replicate n false).set d true with hcan0
  set R := bfsLoop (revTransitions fst) (2 * n + 1) [d] can0 1 with hR
  have hcnt : R.2 = R.1.count true := by
    rw [hR]
    exact bfs_cnt _ _ _ _ _ (can0_count_true n d hd).symm
  have hlen : R.1.length = n := by
    rw [hR, bfs_can_length]
    simp [hcan0]
  have hmarked : R.1.getD d false = true :=
    (numStatesThatCanReach_marked fst d hd d).mpr ⟨hd, Relation.ReflTransGen.refl⟩
  have hmem : true ∈ R.1 := by
    have hdl : d < R.1.length := by omega
    rw [getD_eq_getElem _ _ _ hdl] at hmarked
    rw [← hmarked]
    exact R.1.getElem_mem hdl
  show 1 ≤ R.2
  rw [hcnt]
  simpa [List.count_pos_iff] using hmem

theorem numStatesThatCanReach_le {K : Type} (fst : StdVectorFst K) (d : Nat)
    (hd : d < fst.numStates) : numStatesThatCanReach fst d ≤ fst.numStates := by
  unfold numStatesThatCanReach
  set n := fst.numStates with hn
  set can0 := (List.replicate n false).set d true with hcan0
  set R := bfsLoop (revTransitions fst) (2 * n + 1) [d] can0 1 with hR
  have hcnt : R.2 = R.1.count true := by
    rw [hR]
    exact bfs_cnt _ _ _ _ _ (can0_count_true n d hd).symm
  have hlen : R.1.length = n := by
    rw [hR, bfs_can_length]
    simp [hcan0]
  show R.2 ≤ n
  rw [hcnt, ← hlen]
  exact List.count_le_length true R.1

theorem numStatesThatCanReach_of_connected {K : Type} (fst : StdVectorFst K) (d : Nat)
    (hd : d < fst.numStates)
    (hsc : ∀ s < fst.numStates, ∀ t < fst.numStates, Reaches fst s t) :
    numStatesThatCanReach fst d = fst.numStates := by
  unfold numStatesThatCanReach
  set n := fst.numStates with hn
  set can0 := (List.replicate n false).set d true with hcan0
  set R := bfsLoop (revTransitions fst) (2 * n + 1) [d] can0 1 with hR
  have hcnt : R.2 = R.1.count true := by
    rw [hR]
    exact bfs_cnt _ _ _ _ _ (can0_count_true n d hd).symm
  have hlen : R.1.length = n := by
    rw [hR, bfs_can_length]
    simp [hcan0]
  show R.2 = n
  rw [hcnt, ← hlen]
  rw [List.count_eq_length]
  intro b hb
  obtain ⟨i, hi, hib⟩ := List.mem_iff_getElem.mp hb
  have hin : i < n := by omega
  have hmarked : R.1.getD i false = true :=
    (numStatesThatCanReach_marked fst d hd i).mpr ⟨hin, hsc i hin d hd⟩
  rw [getD_eq_getElem _ _ _ hi] at hmarked
  rw [← hib, hmarked]

/-- The default lexicographic (non-strict) order on
`std::pair<BaseFloat, int32>` used by `std::sort` in
`ComputeSpecialState`, with `BaseFloat` values embedded in `ℚ`. -/
def pairLE (p q : ℚ × Nat) : Prop := p.1 < q.1 ∨ (p.1 = q.1 ∧ p.2 ≤ q.2)

instance : DecidableRel pairLE := fun p q => by
  unfold pairLE
  infer_instance

instance : IsTotal (ℚ × Nat) pairLE := by
  constructor
  intro p q
  unfold pairLE
  rcases lt_trichotomy p.1 q.1 with h | h | h
  · exact Or.inl (Or.inl h)
  · rcases Nat.le_total p.2 q.2 with h2 | h2
    · exact Or.inl (Or.inr ⟨h, h2⟩)
    · exact Or.inr (Or.inr ⟨h.symm, h2⟩)
  · exact Or.inr (Or.inl h)

instance : IsTrans (ℚ × Nat) pairLE := by
  constructor
  intro p q r hpq hqr
  unfold pairLE at hpq hqr ⊢
  rcases hpq with h1 | ⟨h1, h1b⟩ <;> rcases hqr with h2 | ⟨h2, h2b⟩
  · exact Or.inl (lt_trans h1 h2)
  · exact Or.inl (h2 ▸ h1)
  · exact Or.inl (h1 ▸ h2)
  · exact Or.inr ⟨h1.trans h2, le_trans h1b h2b⟩

instance : IsAntisymm (ℚ × Nat) pairLE := by
  constructor
  intro p q hpq hqp
  unfold pairLE at hpq hqp
  rcases hpq with h1 | ⟨h1, h1b⟩ <;> rcases hqp with h2 | ⟨h2, h2b⟩
  · exact absurd h2 (lt_asymm h1)
  · exact absurd h1 (h2 ▸ lt_irrefl p.1)
  · exact absurd h2 (h1 ▸ lt_irrefl p.1)
  · exact Prod.ext h1 (le_antisymm h1b h2b)

/-- The vector `pairs` of `ComputeSpecialState` just before sorting:
`std::vector<std::pair<BaseFloat,int32> > pairs(num_states)` creates
`num_states` value-initialized `(0, 0)` pairs, and the subsequent loop
`push_back`s the pair `(-initial_probs(i), i)` for every state `i`. -/
def specialPairs (ps : List ℚ) : List (ℚ × Nat) :=
  List.replicate ps.length (0, 0) ++
    (List.range ps.length).map (fun i => (-(ps.getD i 0), i))

/-- The candidate array after `std::sort(pairs.begin(), pairs.end())`.
The lexicographic pair order is a linear order, so the sorted
permutation is unique and any correct sorting algorithm produces it;
`List.insertionSort` is used as the model. -/
def sortedPairs (ps : List ℚ) : List (ℚ × Nat) :=
  (specialPairs ps).insertionSort pairLE

/-- The reachability threshold
`int32 min_states_can_reach = 0.75 * num_states` (the float product is
truncated toward zero by the int conversion). -/
def minStatesCanReach (num_states : Nat) : Nat := 3 * num_states / 4

/-- Model of `DenominatorGraph::ComputeSpecialState`: after sorting, the
loop scans `pairs[i]` for `i = 0 .. num_states-1` only, returns the
first scanned state whose `NumStatesThatCanReach` count is at least the
threshold (rejected candidates are only warned about), and raises
`KALDI_ERR` (modelled by `none`) if the scan finds none. -/
def computeSpecialState {K : Type} (fst : StdVectorFst K) (ps : List ℚ) : Option Nat :=
  (((sortedPairs ps).take ps.length).find?
    (fun p => decide (minStatesCanReach ps.length ≤ numStatesThatCanReach fst p.2))).map
    Prod.snd

/-- Selection as the specification's words describe it (used to settle
claim C3): rank all states by initial probability descending (ties by
state index), scan that entire ranked list, return the first state
meeting the reachability threshold, and fail fatally (`none`) only if
no state in the entire ranked list meets it. -/
def computeSpecialStateSpec {K : Type} (fst : StdVectorFst K) (ps : List ℚ) : Option Nat :=
  ((((List.range ps.length).map (fun i => (-(ps.getD i 0), i))).insertionSort
      pairLE).find?
    (fun p => decide (minStatesCanReach ps.length ≤ numStatesThatCanReach fst p.2))).map
    Prod.snd

/-- The real (pushed-back) pairs of `ComputeSpecialState`. -/
def negPairs (ps : List ℚ) : List (ℚ × Nat) :=
  (List.range ps.length).map (fun i => (-(ps.getD i 0), i))

/-- The sorted pairs with strictly negative key, i.e. the states with
strictly positive probability in probability-descending order. -/
def posSorted (ps : List ℚ) : List (ℚ × Nat) :=
  ((negPairs ps).filter (fun p => decide (p.1 < 0))).insertionSort pairLE

/-- The states with strictly positive probability, ranked by
probability descending (ties by state index ascending). -/
def posList (ps : List ℚ) : List Nat := (posSorted ps).map Prod.snd

/-- Number of states whose probability entry is exactly `0`. -/
def zeroStates (ps : List ℚ) : Nat :=
  ((List.range ps.length).filter (fun i => decide (ps.getD i 0 = 0))).length

/-- The states scanned by the selection loop, in scan order: the `snd`
components of the first `num_states` entries of the sorted 2n-entry
array. -/
def scannedStates (ps : List ℚ) : List Nat :=
  ((sortedPairs ps).take ps.length).map Prod.snd

theorem computeSpecialState_eq_find {K : Type} (fst : StdVectorFst K) (ps : List ℚ) :
    computeSpecialState fst ps = (scannedStates ps).find?
      (fun st => decide (minStatesCanReach ps.length ≤ numStatesThatCanReach fst st)) := by
  unfold computeSpecialState scannedStates
  rw [List.find?_map]
  rfl

/-- The zero-key tail entries of the sorted array: the real pairs whose
key is not negative (under nonnegative probabilities, exactly the states
with probability `0`). -/
def zeroTail (ps : List ℚ) : List (ℚ × Nat) :=
  (negPairs ps).filter (fun p => !decide (p.1 < 0))

theorem mem_negPairs (ps : List ℚ) (p : ℚ × Nat) (h : p ∈ negPairs ps) :
    p.2 < ps.length ∧ p.1 = -(ps.getD p.2 0) := by
  unfold negPairs at h
  obtain ⟨i, hi, rfl⟩ := List.mem_map.mp h
  exact ⟨by simpa using List.mem_range.mp hi, rfl⟩

theorem getD_mem_of_lt (ps : List ℚ) (i : Nat) (h : i < ps.length) :
    ps.getD i 0 ∈ ps := by
  rw [getD_eq_getElem _ _ _ h]
  exact ps.getElem_mem h

theorem zeroTail_key (ps : List ℚ) (hnn : ∀ x ∈ ps, 0 ≤ x) (p : ℚ × Nat)
    (h : p ∈ zeroTail ps) : p.1 = 0 := by
  unfold zeroTail at h
  obtain ⟨hmem, hkey⟩ := List.mem_filter.mp h
  obtain ⟨hlt, hval⟩ := mem_negPairs ps p hmem
  have h1 : ¬(p.1 < 0) := by simpa using hkey
  have h2 : 0 ≤ ps.getD p.2 0 := hnn _ (getD_mem_of_lt ps p.2 hlt)
  rw [hval] at h1 ⊢
  linarith [not_lt.mp h1]

theorem posSorted_key (ps : List ℚ) (p : ℚ × Nat) (h : p ∈ posSorted ps) : p.1 < 0 := by
  unfold posSorted at h
  have hmem := (List.perm_insertionSort pairLE _).mem_iff.mp h
  have := (List.mem_filter.mp hmem).2
  simpa using this

theorem zeroTail_pairwise (ps : List ℚ) (hnn : ∀ x ∈ ps, 0 ≤ x) :
    List.Pairwise pairLE (zeroTail ps) := by
  have hsnd : List.Pairwise (fun p q : ℚ × Nat => p.2 < q.2) (negPairs ps) := by
    unfold negPairs
    rw [List.pairwise_map]
    exact List.pairwise_lt_range ps.length
  have hfil : List.Pairwise (fun p q : ℚ × Nat => p.2 < q.2) (zeroTail ps) :=
    hsnd.filter _
  apply hfil.imp_of_mem
  intro a b ha hb hlt
  right
  constructor
  · rw [zeroTail_key ps hnn a ha, zeroTail_key ps hnn b hb]
  · exact le_of_lt hlt

theorem candidate_sorted (ps : List ℚ) (hnn : ∀ x ∈ ps, 0 ≤ x) :
    List.Sorted pairLE
      (posSorted ps ++ (List.replicate ps.length ((0:ℚ), 0) ++ zeroTail ps)) := by
  unfold List.Sorted
  rw [List.pairwise_append]
  refine ⟨List.sorted_insertionSort pairLE _, ?_, ?_⟩
  · rw [List.pairwise_append]
    refine ⟨?_, zeroTail_pairwise ps hnn, ?_⟩
    · rw [List.pairwise_replicate]
      right
      exact Or.inr ⟨rfl, le_refl 0⟩
    · intro a ha b hb
      have ha0 : a = ((0:ℚ), 0) := List.eq_of_mem_replicate ha
      right
      subst ha0
      exact ⟨(zeroTail_key ps hnn b hb).symm, Nat.zero_le b.2⟩
  · intro a ha b hb
    left
    have h1 := posSorted_key ps a ha
    rcases List.mem_append.mp hb with h2 | h2
    · have hb0 : b = ((0:ℚ), 0) := List.eq_of_mem_replicate h2
      rw [hb0]
      exact h1
    · rw [zeroTail_key ps hnn b h2]
      exact h1

theorem candidate_perm (ps : List ℚ) :
    (posSorted ps ++ (List.replicate ps.length ((0:ℚ), 0) ++ zeroTail ps)).Perm
      (specialPairs ps) := by
  have h1 : (posSorted ps).Perm ((negPairs ps).filter (fun p : ℚ × Nat => decide (p.1 < 0))) :=
    List.perm_insertionSort pairLE _
  have h2 : (((negPairs ps).filter (fun p : ℚ × Nat => decide (p.1 < 0))) ++ zeroTail ps).Perm
      (negPairs ps) := List.filter_append_perm _ _
  have step1 : (posSorted ps ++ (List.replicate ps.length ((0:ℚ), 0) ++
      zeroTail ps)).Perm
      (((negPairs ps).filter (fun p : ℚ × Nat => decide (p.1 < 0))) ++
        (List.replicate ps.length ((0:ℚ), 0) ++ zeroTail ps)) :=
    h1.append (List.Perm.refl _)
  have step2 : ((((negPairs ps).filter (fun p : ℚ × Nat => decide (p.1 < 0))) ++
      (List.replicate ps.length ((0:ℚ), 0) ++ zeroTail ps))).Perm
      (List.replicate ps.length ((0:ℚ), 0) ++
        (((negPairs ps).filter (fun p : ℚ × Nat => decide (p.1 < 0))) ++ zeroTail ps)) := by
    rw [← List.append_assoc, ← List.append_assoc]
    exact List.Perm.append List.perm_append_comm (List.Perm.refl _)
  have step3 : (List.replicate ps.length ((0:ℚ), 0) ++
      (((negPairs ps).filter (fun p : ℚ × Nat => decide (p.1 < 0))) ++ zeroTail ps)).Perm
      (List.replicate ps.length ((0:ℚ), 0) ++ negPairs ps) :=
    (List.Perm.refl _).append h2
  exact step1.trans (step2.trans step3)

theorem sortedPairs_eq (ps : List ℚ) (hnn : ∀ x ∈ ps, 0 ≤ x) :
    sortedPairs ps =
      posSorted ps ++ (List.replicate ps.length ((0:ℚ), 0) ++ zeroTail ps) := by
  apply List.eq_of_perm_of_sorted (r := pairLE)
  · exact (List.perm_insertionSort pairLE _).trans (candidate_perm ps).symm
  · exact List.sorted_insertionSort pairLE _
  · exact candidate_sorted ps hnn

theorem posSorted_length_le (ps : List ℚ) : (posSorted ps).length ≤ ps.length := by
  unfold posSorted
  rw [(List.perm_insertionSort pairLE _).length_eq]
  have h := List.length_filter_le (fun p : ℚ × Nat => decide (p.1 < 0)) (negPairs ps)
  have hlen : (negPairs ps).length = ps.length := by
    unfold negPairs
    simp
  omega

theorem posSorted_zeroTail_length (ps : List ℚ) :
    (posSorted ps).length + (zeroTail ps).length = ps.length := by
  unfold posSorted zeroTail
  rw [(List.perm_insertionSort pairLE _).length_eq]
  have h := (List.filter_append_perm (fun p : ℚ × Nat => decide (p.1 < 0))
    (negPairs ps)).length_eq
  rw [List.length_append] at h
  have hlen : (negPairs ps).length = ps.length := by
    unfold negPairs
    simp
  omega

theorem zeroTail_length (ps : List ℚ) (hnn : ∀ x ∈ ps, 0 ≤ x) :
    (zeroTail ps).length = zeroStates ps := by
  unfold zeroTail negPairs zeroStates
  rw [List.filter_map]
  rw [List.length_map]
  congr 1
  apply List.filter_congr
  intro i hi
  have hilt : i < ps.length := List.mem_range.mp hi
  have h0 : 0 ≤ ps.getD i 0 := hnn _ (getD_mem_of_lt ps i hilt)
  show (!decide ((-(ps.getD i 0), i).1 < 0)) = decide (ps.getD i 0 = 0)
  have : (-(ps.getD i 0) < 0) ↔ ¬(ps.getD i 0 = 0) := by
    constructor
    · intro h he
      rw [he] at h
      simp at h
    · intro h
      have : 0 < ps.getD i 0 := lt_of_le_of_ne h0 (fun hc => h hc.symm)
      linarith
  have hd : decide ((-(ps.getD i 0), i).1 < 0) = !decide (ps.getD i 0 = 0) := by
    show decide (-(ps.getD i 0) < 0) = _
    rw [decide_eq_decide.mpr this, decide_not]
  rw [hd, Bool.not_not]

theorem scannedStates_eq (ps : List ℚ) (hnn : ∀ x ∈ ps, 0 ≤ x) :
    scannedStates ps = posList ps ++ List.replicate (zeroStates ps) 0 := by
  unfold scannedStates posList
  rw [sortedPairs_eq ps hnn]
  rw [List.take_append_eq_append_take,
    List.take_of_length_le (posSorted_length_le ps)]
  have hz := posSorted_zeroTail_length ps
  have hz196 : ps.length - (posSorted ps).length ≤ ps.length := Nat.sub_le _ _
  rw [List.take_append_eq_append_take, List.take_replicate, List.length_replicate]
  have hmin : min (ps.length - (posSorted ps).length) ps.length =
      ps.length - (posSorted ps).length := min_eq_left hz196
  rw [hmin]
  have htail : ps.length - (posSorted ps).length - ps.length = 0 := by omega
  rw [htail, List.take_zero, List.append_nil, List.map_append, List.map_replicate]
  have hzz : ps.length - (posSorted ps).length = zeroStates ps := by
    have := zeroTail_length ps hnn
    omega
  rw [hzz]

theorem scannedStates_mem (ps : List ℚ) (st : Nat) (h : st ∈ scannedStates ps) :
    st = 0 ∨ st < ps.length := by
  unfold scannedStates at h
  obtain ⟨p, hp, rfl⟩ := List.mem_map.mp h
  have hp2 : p ∈ sortedPairs ps := List.mem_of_mem_take hp
  have hp3 : p ∈ specialPairs ps := (List.perm_insertionSort pairLE _).mem_iff.mp hp2
  rcases List.mem_append.mp hp3 with h1 | h1
  · left
    rw [List.eq_of_mem_replicate h1]
  · right
    exact (mem_negPairs ps p h1).1

theorem not_mem_posList (ps : List ℚ) (j : Nat) (hz : ps.getD j 0 = 0) :
    j ∉ posList ps := by
  intro h
  unfold posList at h
  obtain ⟨p, hp, rfl⟩ := List.mem_map.mp h
  have hkey := posSorted_key ps p hp
  have hmem : p ∈ negPairs ps := by
    unfold posSorted at hp
    have hf := (List.perm_insertionSort pairLE _).mem_iff.mp hp
    exact (List.mem_filter.mp hf).1
  have hval := (mem_negPairs ps p hmem).2
  rw [hval, hz] at hkey
  simp at hkey

theorem specialPairs_length (ps : List ℚ) :
    (specialPairs ps).length = 2 * ps.length := by
  unfold specialPairs
  simp
  omega

theorem reaches_part {K : Type} (fst : StdVectorFst K) (part : Nat → Bool)
    (hsep : ∀ s < fst.numStates, ∀ a ∈ fst.arcs s, part a.nextstate = part s)
    (s t : Nat) (h : Reaches fst s t) : part t = part s := by
  induction h with
  | refl => rfl
  | tail hst hstep ih =>
    rename_i b c
    obtain ⟨a, ha, hac⟩ := hstep
    have hb : b < fst.numStates := step_lt fst b c ⟨a, ha, hac⟩
    rw [← hac, hsep b hb a ha, ih]

theorem reach_le_part {K : Type} (fst : StdVectorFst K) (d : Nat)
    (hd : d < fst.numStates) (part : Nat → Bool)
    (hsep : ∀ s < fst.numStates, ∀ a ∈ fst.arcs s, part a.nextstate = part s) :
    numStatesThatCanReach fst d ≤
      ((Finset.range fst.numStates).filter (fun s => part s = part d)).card := by
  rw [numStatesThatCanReach_eq_ncard fst d hd]
  have hsub : {s : Nat | s < fst.numStates ∧ Reaches fst s d} ⊆
      ↑((Finset.range fst.numStates).filter (fun s => part s = part d)) := by
    intro s hs
    simp only [Finset.coe_filter, Set.mem_setOf_eq, Finset.mem_range]
    exact ⟨hs.1, (reaches_part fst part hsep s d hs.2).symm⟩
  have h := Set.ncard_le_ncard hsub (Finset.finite_toSet _)
  rw [Set.ncard_coe_Finset] at h
  exact h

theorem part_card_eq {K : Type} (fst : StdVectorFst K) (n : Nat)
    (hN : fst.numStates = 2 * n) (part : Nat → Bool)
    (hsize : ((Finset.range fst.numStates).filter (fun s => part s = true)).card = n)
    (d : Nat) :
    ((Finset.range fst.numStates).filter (fun s => part s = part d)).card = n := by
  have h := Finset.filter_card_add_filter_neg_card_eq_card
    (s := Finset.range fst.numStates) (p := fun s => part s = true)
  rw [Finset.card_range] at h
  have hcong : (Finset.range fst.numStates).filter (fun s => ¬(part s = true)) =
      (Finset.range fst.numStates).filter (fun s => part s = false) := by
    apply Finset.filter_congr
    intro x _
    simp [Bool.not_eq_true]
  rw [hcong] at h
  cases hpd : part d with
  | true => simpa [hpd] using hsize
  | false =>
    have : ((Finset.range fst.numStates).filter (fun s => part s = false)).card = n := by
      omega
    simpa [hpd] using this

theorem computeSpecialState_disconnected {K : Type} (fst : StdVectorFst K)
    (ps : List ℚ) (n : Nat) (hn : 2 ≤ n) (hN : fst.numStates = 2 * n)
    (hlen : ps.length = fst.numStates) (part : Nat → Bool)
    (hsep : ∀ s < fst.numStates, ∀ a ∈ fst.arcs s, part a.nextstate = part s)
    (hsize : ((Finset.range fst.numStates).filter (fun s => part s = true)).card = n) :
    computeSpecialState fst ps = none := by
  rw [computeSpecialState_eq_find]
  apply List.find?_eq_none.mpr
  intro st hst
  have hstlt : st < fst.numStates := by
    rcases scannedStates_mem ps st hst with h | h
    · omega
    · omega
  have hreach : numStatesThatCanReach fst st ≤ n := by
    have h1 := reach_le_part fst st hstlt part hsep
    have h2 := part_card_eq fst n hN part hsize st
    omega
  have hthr : n + 1 ≤ minStatesCanReach ps.length := by
    unfold minStatesCanReach
    rw [hlen, hN]
    rw [Nat.le_div_iff_mul_le (by norm_num)]
    omega
  simp only [decide_eq_true_eq]
  omega

theorem arcsOK_eq_false {K : Type} (fst : StdVectorFst K) (num_pdfs : Int)
    (h : ∃ s < fst.numStates, ∃ a ∈ fst.arcs s,
      a.ilabel - 1 < 0 ∨ num_pdfs ≤ a.ilabel - 1) :
    arcsOK fst num_pdfs = false := by
  obtain ⟨s, hs, a, ha, hbad⟩ := h
  cases hck : arcsOK fst num_pdfs with
  | false => rfl
  | true =>
    exfalso
    unfold arcsOK at hck
    rw [List.all_eq_true] at hck
    have h1 := hck s (List.mem_range.mpr hs)
    rw [List.all_eq_true] at h1
    have h2 := h1 a ha
    simp only [Bool.and_eq_true, decide_eq_true_eq] at h2
    omega

theorem setTransitions_eq_none (E : K → K) (fst : StdVectorFst K) (num_pdfs : Int)
    (h : ∃ s < fst.numStates, ∃ a ∈ fst.arcs s,
      a.ilabel - 1 < 0 ∨ num_pdfs ≤ a.ilabel - 1) :
    setTransitions E fst num_pdfs = none := by
  unfold setTransitions
  rw [arcsOK_eq_false fst num_pdfs h]
  rfl

/-- A single-state automaton: the start state equals the (only) state
`0`, which has no out-arcs and final weight `0`. -/
def singleStateFst (K : Type) [LinearOrderedField K] : StdVectorFst K := ⟨0, [[]], [some 0]⟩

theorem singleState_arcs (K : Type) [LinearOrderedField K] (s : Nat) : (singleStateFst K).arcs s = [] := by
  unfold singleStateFst StdVectorFst.arcs
  cases s with
  | zero => rfl
  | succ s =>
    cases s <;> rfl

theorem singleState_propagate (E : K → K) (cur : Nat → K) (t : Nat) :
    propagate E (singleStateFst K) cur t = 0 := by
  unfold propagate
  apply Finset.sum_eq_zero
  intro s _
  rw [singleState_arcs]
  rfl

theorem singleState_curProbAfter (E : K → K) (n t : Nat) :
    curProbAfter E (singleStateFst K) (n + 1) t = 0 := by
  show iterStep E (singleStateFst K) (curProbAfter E (singleStateFst K) n) t = 0
  unfold iterStep
  rw [singleState_propagate]
  ring

theorem singleState_avgProb (E : K → K) (t : Nat) :
    avgProb E (singleStateFst K) t = 0 := by
  unfold avgProb
  apply Finset.sum_eq_zero
  intro i _
  rw [singleState_curProbAfter]
  ring

theorem singleState_totProb (E : K → K) :
    totProb E (singleStateFst K) 0 = E 0 := by
  unfold totProb
  rw [singleState_arcs]
  show expNegFinal E ((singleStateFst K).final 0) + 0 = E 0
  unfold singleStateFst StdVectorFst.final
  simp [expNegFinal]

/-- Two-state automaton (both labels 1, both weights 0): state 0 (the
start, no final weight) has one arc to state 1, and state 1 (final
weight 0) has one arc back to state 0. -/
def twoStateLoopFst (K : Type) [LinearOrderedField K] : StdVectorFst K :=
  ⟨0, [[⟨1, 1, 0⟩], [⟨1, 0, 0⟩]], [none, some 0]⟩

/-- One-state automaton with a label-1 self-loop of weight 0 and final
weight 0. -/
def selfLoopFst (K : Type) [LinearOrderedField K] : StdVectorFst K := ⟨0, [[⟨1, 0, 0⟩]], [some 0]⟩

/-- One-state automaton whose single arc has label 0, so its pdf-id
`label - 1 = -1` is out of range. -/
def badLabelFst (K : Type) [LinearOrderedField K] : StdVectorFst K := ⟨0, [[⟨0, 0, 0⟩]], [some 0]⟩

/-- One-state automaton with no arcs and no final weight: its total
outgoing mass is `exp(-inf) = 0`. -/
def noMassFst (K : Type) [LinearOrderedField K] : StdVectorFst K := ⟨0, [[]], [none]⟩

/-- Four-state automaton in which states 0, 2, 3 each have one arc into
state 1 and state 1 has a self-loop: state 1 is reachable from all four
states, every other state only from itself. -/
def hubFst (K : Type) [LinearOrderedField K] : StdVectorFst K :=
  ⟨0, [[⟨1, 1, 0⟩], [⟨1, 1, 0⟩], [⟨1, 1, 0⟩], [⟨1, 1, 0⟩]], [none, none, none, none]⟩

/-- Two-state automaton with no arcs at all: two disconnected
singleton components. -/
def twoIslandFst (K : Type) [LinearOrderedField K] : StdVectorFst K := ⟨0, [[], []], [some 0, some 0]⟩

/-- Four-state automaton made of two disconnected two-state cycles
(0 and 1, 2 and 3). -/
def twoComponentFst (K : Type) [LinearOrderedField K] : StdVectorFst K :=
  ⟨0, [[⟨1, 1, 0⟩], [⟨1, 0, 0⟩], [⟨1, 3, 0⟩], [⟨1, 2, 0⟩]],
    [none, none, none, none]⟩

/-- The rational number one half, as a reduced fraction. -/
def halfQ : ℚ := ⟨1, 2, by decide, by decide⟩

/-- The rational number one quarter, as a reduced fraction. -/
def quarterQ : ℚ := ⟨1, 4, by decide, by decide⟩

/-- Forward offset pair (`forward_transitions[s]`) of the built tables. -/
def fwdOff (E : K → K) (fst : StdVectorFst K) (s : Nat) : Nat × Nat :=
  (transitionTables E fst).forward_transitions.getD s (0, 0)

/-- Backward offset pair (`backward_transitions[s]`) of the built tables. -/
def bwdOff (E : K → K) (fst : StdVectorFst K) (s : Nat) : Nat × Nat :=
  (transitionTables E fst).backward_transitions.getD s (0, 0)

theorem forward_transitions_length (E : K → K) (fst : StdVectorFst K) :
    (transitionTables E fst).forward_transitions.length = fst.numStates := by
  show (flattenFrom (outBuckets E fst) []).1.length = _
  rw [flattenFrom_fst_length, outBuckets_length]

theorem backward_transitions_length (E : K → K) (fst : StdVectorFst K) :
    (transitionTables E fst).backward_transitions.length = fst.numStates := by
  show (flattenFrom (inBuckets E fst) _).1.length = _
  rw [flattenFrom_fst_length, inBuckets_length]

theorem transitions_length (E : K → K) (fst : StdVectorFst K)
    (hdest : ∀ s < fst.numStates, ∀ a ∈ fst.arcs s, a.nextstate < fst.numStates) :
    (transitionTables E fst).transitions.length = 2 * numArcs fst := by
  rw [transitions_eq, List.length_append, length_flatten_eq_sumLens,
    length_flatten_eq_sumLens, sumLens_outBuckets, sumLens_inBuckets E fst hdest]
  ring

theorem fwdOff_eq (E : K → K) (fst : StdVectorFst K) (s : Nat) (h : s < fst.numStates) :
    fwdOff E fst s =
      (sumLens ((outBuckets E fst).take s), sumLens ((outBuckets E fst).take (s + 1))) :=
  forward_getD E fst s h

theorem bwdOff_eq (E : K → K) (fst : StdVectorFst K) (s : Nat) (h : s < fst.numStates) :
    bwdOff E fst s =
      (sumLens (outBuckets E fst) + sumLens ((inBuckets E fst).take s),
       sumLens (outBuckets E fst) + sumLens ((inBuckets E fst).take (s + 1))) :=
  backward_getD E fst s h

theorem sumLens_take_mono {α : Type} (bs : List (List α)) (i : Nat) (h : i < bs.length) :
    sumLens (bs.take i) ≤ sumLens (bs.take (i + 1)) := by
  rw [sumLens_take_succ bs i h]
  omega

theorem sumLens_take_length {α : Type} (bs : List (List α)) :
    sumLens (bs.take bs.length) = sumLens bs := by
  rw [List.take_of_length_le (le_refl _)]

/-- C1: for every finalized input automaton and every state `s`, the
built forward table's range for `s` contains exactly the out-arcs of
`s` — one record per arc, with unit id `label - 1`, adjacent state the
arc's destination and linear probability `exp(-weight)` — and the
backward table's range for `s` contains exactly the in-arcs to `s`,
each record carrying the arc's source as adjacent state with the same
unit id and probability (in source-state order). -/
theorem C1_forward_backward_ranges (fst : StdVectorFst ℝ) (s : Nat)
    (hs : s < fst.numStates) :
    sliceP (transitionTables (fun w => Real.exp (-w)) fst).transitions
        ((transitionTables (fun w => Real.exp (-w)) fst).forward_transitions.getD s
          (0, 0)) =
      (fst.arcs s).map (fun a =>
        { transition_prob := Real.exp (-a.weight), pdf_id := a.ilabel - 1,
          hmm_state := a.nextstate }) ∧
    sliceP (transitionTables (fun w => Real.exp (-w)) fst).transitions
        ((transitionTables (fun w => Real.exp (-w)) fst).backward_transitions.getD s
          (0, 0)) =
      (List.range fst.numStates).flatMap (fun u =>
        ((fst.arcs u).filter (fun a => a.nextstate == s)).map (fun a =>
          { transition_prob := Real.exp (-a.weight), pdf_id := a.ilabel - 1,
            hmm_state := u })) :=
  ⟨forward_slice _ fst s hs, backward_slice _ fst s hs⟩

/-- Witness for C1: the two-state automaton, state 0. -/
theorem C1_forward_backward_ranges_witness :
    0 < (twoStateLoopFst ℝ).numStates ∧
    (sliceP (transitionTables (fun w => Real.exp (-w)) (twoStateLoopFst ℝ)).transitions
        ((transitionTables (fun w => Real.exp (-w))
          (twoStateLoopFst ℝ)).forward_transitions.getD 0 (0, 0)) =
      ((twoStateLoopFst ℝ).arcs 0).map (fun a =>
        { transition_prob := Real.exp (-a.weight), pdf_id := a.ilabel - 1,
          hmm_state := a.nextstate }) ∧
    sliceP (transitionTables (fun w => Real.exp (-w)) (twoStateLoopFst ℝ)).transitions
        ((transitionTables (fun w => Real.exp (-w))
          (twoStateLoopFst ℝ)).backward_transitions.getD 0 (0, 0)) =
      (List.range (twoStateLoopFst ℝ).numStates).flatMap (fun u =>
        (((twoStateLoopFst ℝ).arcs u).filter (fun a => a.nextstate == 0)).map (fun a =>
          { transition_prob := Real.exp (-a.weight), pdf_id := a.ilabel - 1,
            hmm_state := u }))) :=
  ⟨by decide, C1_forward_backward_ranges (twoStateLoopFst ℝ) 0 (by decide)⟩

/-- C7: the flat record array holds all forward buckets in state order
followed by all backward buckets in state order: both offset tables
have one entry per state, every offset entry is a half-open range with
`begin <= end`, consecutive ranges abut, the forward ranges cover
exactly `[0, num_arcs)` and the backward ranges cover exactly
`[num_arcs, 2*num_arcs)` (so the flat array has `2*num_arcs` records). -/
theorem C7_flat_layout (fst : StdVectorFst ℝ)
    (hdest : ∀ s < fst.numStates, ∀ a ∈ fst.arcs s, a.nextstate < fst.numStates) :
    (transitionTables (fun w => Real.exp (-w)) fst).forward_transitions.length =
      fst.numStates ∧
    (transitionTables (fun w => Real.exp (-w)) fst).backward_transitions.length =
      fst.numStates ∧
    (transitionTables (fun w => Real.exp (-w)) fst).transitions.length =
      2 * numArcs fst ∧
    (∀ s < fst.numStates,
      (fwdOff (fun w => Real.exp (-w)) fst s).1 ≤
        (fwdOff (fun w => Real.exp (-w)) fst s).2 ∧
      (bwdOff (fun w => Real.exp (-w)) fst s).1 ≤
        (bwdOff (fun w => Real.exp (-w)) fst s).2) ∧
    (∀ s, s + 1 < fst.numStates →
      (fwdOff (fun w => Real.exp (-w)) fst s).2 =
        (fwdOff (fun w => Real.exp (-w)) fst (s + 1)).1 ∧
      (bwdOff (fun w => Real.exp (-w)) fst s).2 =
        (bwdOff (fun w => Real.exp (-w)) fst (s + 1)).1) ∧
    (0 < fst.numStates →
      (fwdOff (fun w => Real.exp (-w)) fst 0).1 = 0 ∧
      (fwdOff (fun w => Real.exp (-w)) fst (fst.numStates - 1)).2 = numArcs fst ∧
      (bwdOff (fun w => Real.exp (-w)) fst 0).1 = numArcs fst ∧
      (bwdOff (fun w => Real.exp (-w)) fst (fst.numStates - 1)).2 =
        2 * numArcs fst) := by
  set E := fun w : ℝ => Real.exp (-w) with hE
  have houtlen : (outBuckets E fst).length = fst.numStates := outBuckets_length E fst
  have hinlen : (inBuckets E fst).length = fst.numStates := inBuckets_length E fst
  refine ⟨forward_transitions_length E fst, backward_transitions_length E fst,
    transitions_length E fst hdest, ?_, ?_, ?_⟩
  · intro s hs
    rw [fwdOff_eq E fst s hs, bwdOff_eq E fst s hs]
    constructor
    · exact sumLens_take_mono _ s (by omega)
    · exact Nat.add_le_add_left (sumLens_take_mono _ s (by omega)) _
  · intro s hs1
    have hs : s < fst.numStates := by omega
    rw [fwdOff_eq E fst s hs, fwdOff_eq E fst (s + 1) hs1,
      bwdOff_eq E fst s hs, bwdOff_eq E fst (s + 1) hs1]
    exact ⟨rfl, rfl⟩
  · intro hpos
    have hlast : fst.numStates - 1 < fst.numStates := by omega
    have hsucc : fst.numStates - 1 + 1 = fst.numStates := by omega
    rw [fwdOff_eq E fst 0 hpos, fwdOff_eq E fst (fst.numStates - 1) hlast,
      bwdOff_eq E fst 0 hpos, bwdOff_eq E fst (fst.numStates - 1) hlast, hsucc]
    have htake0out : sumLens ((outBuckets E fst).take 0) = 0 := by
      simp [sumLens]
    have htake0in : sumLens ((inBuckets E fst).take 0) = 0 := by
      simp [sumLens]
    have hfullout : sumLens ((outBuckets E fst).take fst.numStates) = numArcs fst := by
      rw [← houtlen, sumLens_take_length, sumLens_outBuckets]
    have hfullin : sumLens ((inBuckets E fst).take fst.numStates) = numArcs fst := by
      rw [← hinlen, sumLens_take_length, sumLens_inBuckets E fst hdest]
    refine ⟨htake0out, hfullout, ?_, ?_⟩
    · rw [htake0in, sumLens_outBuckets]
      ring
    · rw [hfullin, sumLens_outBuckets]
      ring

/-- Witness for C7: the two-state automaton. -/
theorem C7_flat_layout_witness :
    (∀ s < (twoStateLoopFst ℝ).numStates, ∀ a ∈ (twoStateLoopFst ℝ).arcs s,
      a.nextstate < (twoStateLoopFst ℝ).numStates) ∧
    ((transitionTables (fun w => Real.exp (-w))
        (twoStateLoopFst ℝ)).forward_transitions.length =
      (twoStateLoopFst ℝ).numStates ∧
    (transitionTables (fun w => Real.exp (-w))
        (twoStateLoopFst ℝ)).backward_transitions.length =
      (twoStateLoopFst ℝ).numStates ∧
    (transitionTables (fun w => Real.exp (-w)) (twoStateLoopFst ℝ)).transitions.length =
      2 * numArcs (twoStateLoopFst ℝ) ∧
    (∀ s < (twoStateLoopFst ℝ).numStates,
      (fwdOff (fun w => Real.exp (-w)) (twoStateLoopFst ℝ) s).1 ≤
        (fwdOff (fun w => Real.exp (-w)) (twoStateLoopFst ℝ) s).2 ∧
      (bwdOff (fun w => Real.exp (-w)) (twoStateLoopFst ℝ) s).1 ≤
        (bwdOff (fun w => Real.exp (-w)) (twoStateLoopFst ℝ) s).2) ∧
    (∀ s, s + 1 < (twoStateLoopFst ℝ).numStates →
      (fwdOff (fun w => Real.exp (-w)) (twoStateLoopFst ℝ) s).2 =
        (fwdOff (fun w => Real.exp (-w)) (twoStateLoopFst ℝ) (s + 1)).1 ∧
      (bwdOff (fun w => Real.exp (-w)) (twoStateLoopFst ℝ) s).2 =
        (bwdOff (fun w => Real.exp (-w)) (twoStateLoopFst ℝ) (s + 1)).1) ∧
    (0 < (twoStateLoopFst ℝ).numStates →
      (fwdOff (fun w => Real.exp (-w)) (twoStateLoopFst ℝ) 0).1 = 0 ∧
      (fwdOff (fun w => Real.exp (-w)) (twoStateLoopFst ℝ)
        ((twoStateLoopFst ℝ).numStates - 1)).2 = numArcs (twoStateLoopFst ℝ) ∧
      (bwdOff (fun w => Real.exp (-w)) (twoStateLoopFst ℝ) 0).1 =
        numArcs (twoStateLoopFst ℝ) ∧
      (bwdOff (fun w => Real.exp (-w)) (twoStateLoopFst ℝ)
        ((twoStateLoopFst ℝ).numStates - 1)).2 =
        2 * numArcs (twoStateLoopFst ℝ))) :=
  ⟨by decide, C7_flat_layout (twoStateLoopFst ℝ) (by decide)⟩

/-- C2 counterexample: the single-state automaton with no out-arcs and
final weight 0 has strictly positive total mass at every state, yet the
returned initial-probability vector sums to 0, not to 1 within the
1e-4 tolerance — all mass escapes through the final weight in the
first iteration, and rescaling a zero vector cannot restore it (in
exact arithmetic the code's `Scale(1.0/0.0)` yields the zero vector;
in IEEE arithmetic it yields NaN, likewise not within tolerance). -/
theorem C2_sum_counterexample :
    (∀ s < (singleStateFst ℝ).numStates,
      0 < totProb (fun w => Real.exp (-w)) (singleStateFst ℝ) s) ∧
    ¬ (|vecSum (avgProb (fun w => Real.exp (-w)) (singleStateFst ℝ))
        (singleStateFst ℝ).numStates - 1| ≤ 1 / 10000) := by
  constructor
  · intro s hs
    have hs0 : s = 0 := by
      have : (singleStateFst ℝ).numStates = 1 := rfl
      omega
    subst hs0
    rw [singleState_totProb]
    exact Real.exp_pos _
  · have h1 : (singleStateFst ℝ).numStates = 1 := rfl
    rw [h1]
    have h2 : vecSum (avgProb (fun w => Real.exp (-w)) (singleStateFst ℝ)) 1 = 0 := by
      unfold vecSum
      rw [Finset.sum_range_one, singleState_avgProb]
    rw [h2]
    norm_num

/-- C2 (amended): if additionally every state has at least one out-arc
(so that occupancy mass survives each propagation sweep), the returned
vector has all entries nonnegative and sums to 1 within the 1e-4
tolerance (the model proves the sum is exactly 1). -/
theorem C2_initial_probs_sum (fst : StdVectorFst ℝ)
    (hstart : fst.start < fst.numStates)
    (hmass : ∀ s < fst.numStates, 0 < totProb (fun w => Real.exp (-w)) fst s)
    (harcs : ∀ s < fst.numStates, fst.arcs s ≠ [])
    (hdest : ∀ s < fst.numStates, ∀ a ∈ fst.arcs s, a.nextstate < fst.numStates) :
    (∀ t, 0 ≤ avgProb (fun w => Real.exp (-w)) fst t) ∧
    |vecSum (avgProb (fun w => Real.exp (-w)) fst) fst.numStates - 1| ≤ 1 / 10000 := by
  have hE : ∀ x : ℝ, 0 < (fun w => Real.exp (-w)) x := fun x => Real.exp_pos _
  constructor
  · exact avgProb_nonneg _ hE fst
  · rw [vecSum_avgProb _ hE fst hstart hmass harcs hdest]
    norm_num

/-- Witness for C2 (amended): the one-state self-loop automaton. -/
theorem C2_initial_probs_sum_witness :
    ((selfLoopFst ℝ).start < (selfLoopFst ℝ).numStates ∧
      (∀ s < (selfLoopFst ℝ).numStates,
        0 < totProb (fun w => Real.exp (-w)) (selfLoopFst ℝ) s) ∧
      (∀ s < (selfLoopFst ℝ).numStates, (selfLoopFst ℝ).arcs s ≠ []) ∧
      (∀ s < (selfLoopFst ℝ).numStates, ∀ a ∈ (selfLoopFst ℝ).arcs s,
        a.nextstate < (selfLoopFst ℝ).numStates)) ∧
    ((∀ t, 0 ≤ avgProb (fun w => Real.exp (-w)) (selfLoopFst ℝ) t) ∧
      |vecSum (avgProb (fun w => Real.exp (-w)) (selfLoopFst ℝ))
        (selfLoopFst ℝ).numStates - 1| ≤ 1 / 10000) := by
  have hstart : (selfLoopFst ℝ).start < (selfLoopFst ℝ).numStates := by decide
  have hmass : ∀ s < (selfLoopFst ℝ).numStates,
      0 < totProb (fun w => Real.exp (-w)) (selfLoopFst ℝ) s := by
    intro s hs
    have hs0 : s = 0 := by
      have : (selfLoopFst ℝ).numStates = 1 := rfl
      omega
    subst hs0
    have harc : (selfLoopFst ℝ).arcs 0 = [⟨1, 0, 0⟩] := rfl
    have hfin : (selfLoopFst ℝ).final 0 = some 0 := rfl
    unfold totProb
    rw [harc, hfin]
    simp only [List.map_cons, List.map_nil, List.sum_cons, List.sum_nil, expNegFinal]
    have := Real.exp_pos (-(0:ℝ))
    linarith
  have harcs : ∀ s < (selfLoopFst ℝ).numStates, (selfLoopFst ℝ).arcs s ≠ [] := by
    intro s hs
    have hs0 : s = 0 := by
      have : (selfLoopFst ℝ).numStates = 1 := rfl
      omega
    subst hs0
    intro hc
    have harc : (selfLoopFst ℝ).arcs 0 = [⟨1, 0, 0⟩] := rfl
    rw [harc] at hc
    simp at hc
  have hdest : ∀ s < (selfLoopFst ℝ).numStates, ∀ a ∈ (selfLoopFst ℝ).arcs s,
      a.nextstate < (selfLoopFst ℝ).numStates := by
    intro s hs a ha
    have hs0 : s = 0 := by
      have : (selfLoopFst ℝ).numStates = 1 := rfl
      omega
    subst hs0
    have harc : (selfLoopFst ℝ).arcs 0 = [⟨1, 0, 0⟩] := rfl
    rw [harc] at ha
    rcases List.mem_singleton.mp ha with rfl
    decide
  exact ⟨⟨hstart, hmass, harcs, hdest⟩,
    C2_initial_probs_sum (selfLoopFst ℝ) hstart hmass harcs hdest⟩

/-- C8 counterexample: on the single-state automaton whose only state
is the start state with no out-arcs (its total mass `exp(-0) = 1`
passes the positivity check), the estimator does not return 1.0 on that
state: the mass leaks out through the final weight in the first
iteration, so the returned entry is 0 (NaN in IEEE arithmetic), not 1. -/
theorem C8_single_state_counterexample :
    initProbsCheckOK (fun w => Real.exp (-w)) (singleStateFst ℝ) ∧
    avgProb (fun w => Real.exp (-w)) (singleStateFst ℝ) 0 ≠ 1 := by
  constructor
  · intro s hs
    have hs0 : s = 0 := by
      have : (singleStateFst ℝ).numStates = 1 := rfl
      omega
    subst hs0
    rw [singleState_totProb]
    constructor
    · exact Real.exp_pos _
    · have : Real.exp (-(0:ℝ)) = 1 := by
        rw [neg_zero, Real.exp_zero]
      rw [this]
      norm_num
  · rw [singleState_avgProb]
    norm_num

/-- C8 (amended): on the single-state automaton whose only state is the
start state with no out-arcs and a finite final weight, the mass check
passes, but the propagation loop loses the whole occupancy mass in its
first sweep (there is no arc to carry it), so the estimator returns 0 —
not a constant distribution of 1.0 — on that state (in the exact-real
model; the IEEE computation produces `0 * inf = NaN` instead). -/
theorem C8_single_state_returns_zero :
    initProbsCheckOK (fun w => Real.exp (-w)) (singleStateFst ℝ) ∧
    (∀ n t, curProbAfter (fun w => Real.exp (-w)) (singleStateFst ℝ) (n + 1) t = 0) ∧
    avgProb (fun w => Real.exp (-w)) (singleStateFst ℝ) 0 = 0 := by
  refine ⟨?_, fun n t => singleState_curProbAfter _ n t, singleState_avgProb _ 0⟩
  intro s hs
  have hs0 : s = 0 := by
    have : (singleStateFst ℝ).numStates = 1 := rfl
    omega
  subst hs0
  rw [singleState_totProb]
  constructor
  · exact Real.exp_pos _
  · have : Real.exp (-(0:ℝ)) = 1 := by
      rw [neg_zero, Real.exp_zero]
    rw [this]
    norm_num

/-- C6: the initial-probability estimator fails fast — the per-state
assertion `0 < tot_prob < 100` is violated, so construction aborts —
whenever some state's total outgoing mass (`exp(-final)` plus the sum
of `exp(-weight)` over its out-arcs) is non-positive or exceeds 100. -/
theorem C6_mass_check_aborts (fst : StdVectorFst ℝ)
    (h : ∃ s < fst.numStates,
      totProb (fun w => Real.exp (-w)) fst s ≤ 0 ∨
        100 < totProb (fun w => Real.exp (-w)) fst s) :
    ¬ initProbsCheckOK (fun w => Real.exp (-w)) fst := by
  obtain ⟨s, hs, hbad⟩ := h
  intro hok
  obtain ⟨h1, h2⟩ := hok s hs
  rcases hbad with h3 | h3 <;> linarith

/-- Witness for C6: the automaton with one state, no arcs and no final
weight, whose total mass is 0. -/
theorem C6_mass_check_aborts_witness :
    (∃ s < (noMassFst ℝ).numStates,
      totProb (fun w => Real.exp (-w)) (noMassFst ℝ) s ≤ 0 ∨
        100 < totProb (fun w => Real.exp (-w)) (noMassFst ℝ) s) ∧
    ¬ initProbsCheckOK (fun w => Real.exp (-w)) (noMassFst ℝ) := by
  have h : ∃ s < (noMassFst ℝ).numStates,
      totProb (fun w => Real.exp (-w)) (noMassFst ℝ) s ≤ 0 ∨
        100 < totProb (fun w => Real.exp (-w)) (noMassFst ℝ) s := by
    refine ⟨0, by decide, Or.inl ?_⟩
    have harc : (noMassFst ℝ).arcs 0 = [] := rfl
    have hfin : (noMassFst ℝ).final 0 = none := rfl
    unfold totProb
    rw [harc, hfin]
    simp [expNegFinal]
  exact ⟨h, C6_mass_check_aborts (noMassFst ℝ) h⟩

/-- C5: construction aborts with no object produced whenever some arc's
label minus one is negative or at least `num_pdfs`: `SetTransitions`
(the first step of the constructor) fails its pdf-id assertion and
returns nothing. -/
theorem C5_bad_label_aborts (fst : StdVectorFst ℝ) (num_pdfs : Int)
    (h : ∃ s < fst.numStates, ∃ a ∈ fst.arcs s,
      a.ilabel - 1 < 0 ∨ num_pdfs ≤ a.ilabel - 1) :
    setTransitions (fun w => Real.exp (-w)) fst num_pdfs = none :=
  setTransitions_eq_none _ fst num_pdfs h

/-- Witness for C5: a one-state automaton whose arc has label 0
(pdf-id -1), with `num_pdfs = 2`. -/
theorem C5_bad_label_aborts_witness :
    (∃ s < (badLabelFst ℝ).numStates, ∃ a ∈ (badLabelFst ℝ).arcs s,
      a.ilabel - 1 < 0 ∨ (2:Int) ≤ a.ilabel - 1) ∧
    setTransitions (fun w => Real.exp (-w)) (badLabelFst ℝ) 2 = none :=
  ⟨by decide, C5_bad_label_aborts (badLabelFst ℝ) 2 (by decide)⟩

/-- C4: for every automaton and every in-range destination state `d`,
`NumStatesThatCanReach` returns the number of states (including `d`)
from which `d` is reachable by zero or more forward arcs, ignoring
weights; the result is at least 1 and at most the number of states, and
it equals the number of states when the automaton is strongly
connected. -/
theorem C4_reachability_count (fst : StdVectorFst ℝ) (d : Nat)
    (hd : d < fst.numStates) :
    numStatesThatCanReach fst d =
      Set.ncard {s : Nat | s < fst.numStates ∧ Reaches fst s d} ∧
    1 ≤ numStatesThatCanReach fst d ∧
    numStatesThatCanReach fst d ≤ fst.numStates ∧
    ((∀ s < fst.numStates, ∀ t < fst.numStates, Reaches fst s t) →
      numStatesThatCanReach fst d = fst.numStates) :=
  ⟨numStatesThatCanReach_eq_ncard fst d hd,
   numStatesThatCanReach_pos fst d hd,
   numStatesThatCanReach_le fst d hd,
   fun hsc => numStatesThatCanReach_of_connected fst d hd hsc⟩

/-- Witness for C4: the two-state automaton, destination state 0. -/
theorem C4_reachability_count_witness :
    0 < (twoStateLoopFst ℝ).numStates ∧
    (numStatesThatCanReach (twoStateLoopFst ℝ) 0 =
      Set.ncard {s : Nat | s < (twoStateLoopFst ℝ).numStates ∧
        Reaches (twoStateLoopFst ℝ) s 0} ∧
    1 ≤ numStatesThatCanReach (twoStateLoopFst ℝ) 0 ∧
    numStatesThatCanReach (twoStateLoopFst ℝ) 0 ≤ (twoStateLoopFst ℝ).numStates ∧
    ((∀ s < (twoStateLoopFst ℝ).numStates, ∀ t < (twoStateLoopFst ℝ).numStates,
        Reaches (twoStateLoopFst ℝ) s t) →
      numStatesThatCanReach (twoStateLoopFst ℝ) 0 = (twoStateLoopFst ℝ).numStates)) :=
  ⟨by decide, C4_reachability_count (twoStateLoopFst ℝ) 0 (by decide)⟩

/-- C3 counterexample: with probabilities `[1/2, 0, 1/4, 1/4]` on the
four-state automaton whose states 0, 2, 3 each reach only themselves
and whose state 1 is reachable from all four states (threshold
`0.75 * 4 = 3`), the procedure the claim describes — scan the entire
ranked list of states — accepts state 1 and returns it, but the code
never examines state 1 (the scan reads a default-constructed `(0, 0)`
entry in its place) and raises the fatal no-anchor error instead. -/
theorem C3_scan_counterexample :
    (∀ x ∈ [halfQ, 0, quarterQ, quarterQ], 0 ≤ x) ∧
    computeSpecialStateSpec (hubFst ℝ) [halfQ, 0, quarterQ, quarterQ] = some 1 ∧
    computeSpecialState (hubFst ℝ) [halfQ, 0, quarterQ, quarterQ] = none :=
  ⟨by decide, by decide, by decide⟩

/-- C3 (amended): selection computes the integer threshold
`0.75 * num_states` (truncated), scans — in order — the first
`num_states` entries of the sorted `2*num_states`-entry candidate
array, i.e. the strictly-positive-probability states in
probability-descending order followed by one default state-0 entry per
zero-probability state; it returns the first scanned candidate whose
reachability count meets the threshold (rejected candidates are only
logged), and aborts with the fatal no-anchor error exactly when no
scanned candidate meets the threshold. -/
theorem C3_selection_procedure (fst : StdVectorFst ℝ) (ps : List ℚ)
    (hnn : ∀ x ∈ ps, 0 ≤ x) :
    scannedStates ps = posList ps ++ List.replicate (zeroStates ps) 0 ∧
    computeSpecialState fst ps = (scannedStates ps).find?
      (fun st => decide (minStatesCanReach ps.length ≤ numStatesThatCanReach fst st)) ∧
    (computeSpecialState fst ps = none ↔
      ∀ st ∈ scannedStates ps,
        numStatesThatCanReach fst st < minStatesCanReach ps.length) := by
  refine ⟨scannedStates_eq ps hnn, computeSpecialState_eq_find fst ps, ?_⟩
  rw [computeSpecialState_eq_find fst ps, List.find?_eq_none]
  constructor
  · intro h st hst
    have h2 := h st hst
    simp only [decide_eq_true_eq] at h2
    omega
  · intro h st hst
    simp only [decide_eq_true_eq]
    have h2 := h st hst
    omega

/-- Witness for C3 (amended): probabilities `[1, 0]` on the two-state
automaton. -/
theorem C3_selection_procedure_witness :
    (∀ x ∈ [(1:ℚ), 0], 0 ≤ x) ∧
    (scannedStates [(1:ℚ), 0] =
        posList [(1:ℚ), 0] ++ List.replicate (zeroStates [(1:ℚ), 0]) 0 ∧
      computeSpecialState (twoStateLoopFst ℝ) [(1:ℚ), 0] =
        (scannedStates [(1:ℚ), 0]).find?
          (fun st => decide (minStatesCanReach ([(1:ℚ), 0]).length ≤
            numStatesThatCanReach (twoStateLoopFst ℝ) st)) ∧
      (computeSpecialState (twoStateLoopFst ℝ) [(1:ℚ), 0] = none ↔
        ∀ st ∈ scannedStates [(1:ℚ), 0],
          numStatesThatCanReach (twoStateLoopFst ℝ) st <
            minStatesCanReach ([(1:ℚ), 0]).length)) :=
  ⟨by decide, C3_selection_procedure (twoStateLoopFst ℝ) [(1:ℚ), 0] (by decide)⟩

/-- C9 counterexample: the two-state automaton with no arcs consists of
two disconnected components of equal size (each state is reachable
only from itself), yet selection does not raise the no-anchor error:
the threshold is `int(0.75 * 2) = 1`, every state trivially meets it,
and the highest-probability candidate (state 0) is returned. -/
theorem C9_two_state_counterexample :
    (twoIslandFst ℝ).numStates = 2 ∧
    numStatesThatCanReach (twoIslandFst ℝ) 0 = 1 ∧
    numStatesThatCanReach (twoIslandFst ℝ) 1 = 1 ∧
    computeSpecialState (twoIslandFst ℝ) [1, 1] = some 0 := by
  refine ⟨by decide, by decide, by decide, by decide⟩

/-- C9 (amended): for an automaton of `2*n` states (`n >= 2`) split by
`part` into two mutually unreachable halves of `n` states each, no
state is reachable from `int(0.75 * 2n) >= n+1` states, so special-state
selection raises the fatal no-anchor error (returns `none`). -/
theorem C9_disconnected_error (fst : StdVectorFst ℝ) (ps : List ℚ) (n : Nat)
    (hn : 2 ≤ n) (hN : fst.numStates = 2 * n) (hlen : ps.length = fst.numStates)
    (part : Nat → Bool)
    (hsep : ∀ s < fst.numStates, ∀ a ∈ fst.arcs s, part a.nextstate = part s)
    (hsize : ((Finset.range fst.numStates).filter (fun s => part s = true)).card = n) :
    computeSpecialState fst ps = none :=
  computeSpecialState_disconnected fst ps n hn hN hlen part hsep hsize

/-- Witness for C9 (amended): two disconnected two-state cycles. -/
theorem C9_disconnected_error_witness :
    (2 ≤ 2 ∧ (twoComponentFst ℝ).numStates = 2 * 2 ∧
      ([(1:ℚ), 1, 1, 1]).length = (twoComponentFst ℝ).numStates ∧
      (∀ s < (twoComponentFst ℝ).numStates, ∀ a ∈ (twoComponentFst ℝ).arcs s,
        (decide (a.nextstate < 2) : Bool) = decide (s < 2)) ∧
      ((Finset.range (twoComponentFst ℝ).numStates).filter
        (fun s => (decide (s < 2) : Bool) = true)).card = 2) ∧
    computeSpecialState (twoComponentFst ℝ) [(1:ℚ), 1, 1, 1] = none :=
  ⟨⟨by decide, by decide, by decide, by decide, by decide⟩,
   C9_disconnected_error (twoComponentFst ℝ) [(1:ℚ), 1, 1, 1] 2 (by decide) (by decide)
     (by decide) (fun s => decide (s < 2)) (by decide) (by decide)⟩

/-- C10 counterexample: with the single-entry probability vector `[0]`
(at least one state has probability exactly 0), every state of the
automaton is index 0, state 0 is scanned, and no state with zero
probability and nonzero index exists at all — so the claim's
"at least one real state with zero initial probability and nonzero
index is never examined" fails at this input. -/
theorem C10_zero_state_counterexample :
    ([(0:ℚ)].getD 0 0 = 0) ∧
    scannedStates [(0:ℚ)] = [0] ∧
    (∀ j < ([(0:ℚ)]).length,
      ¬(j ≠ 0 ∧ [(0:ℚ)].getD j 0 = 0 ∧ j ∉ scannedStates [(0:ℚ)])) :=
  ⟨by decide, by decide, by decide⟩

/-- C10 (amended): the candidate array holds `2*num_states` entries —
`num_states` default `(0, 0)` pairs plus the `num_states` pushed real
pairs — and only the first `num_states` sorted entries are scanned:
they are the positive-probability states in probability-descending
order followed by exactly one state-0 entry per zero-probability state.
Consequently, whenever some state with nonzero index has probability
exactly 0, every such state (in particular at least one) is never
examined as a candidate. -/
theorem C10_default_entries (ps : List ℚ) (hnn : ∀ x ∈ ps, 0 ≤ x)
    (hex : ∃ j, j < ps.length ∧ j ≠ 0 ∧ ps.getD j 0 = 0) :
    (specialPairs ps).length = 2 * ps.length ∧
    scannedStates ps = posList ps ++ List.replicate (zeroStates ps) 0 ∧
    1 ≤ zeroStates ps ∧
    (∀ j < ps.length, j ≠ 0 → ps.getD j 0 = 0 → j ∉ scannedStates ps) ∧
    (∃ j, j < ps.length ∧ j ≠ 0 ∧ ps.getD j 0 = 0 ∧ j ∉ scannedStates ps) := by
  have hscan := scannedStates_eq ps hnn
  have hnot : ∀ j < ps.length, j ≠ 0 → ps.getD j 0 = 0 → j ∉ scannedStates ps := by
    intro j hj hj0 hz hc
    rw [hscan] at hc
    rcases List.mem_append.mp hc with h1 | h1
    · exact not_mem_posList ps j hz h1
    · exact hj0 (List.eq_of_mem_replicate h1)
  obtain ⟨j, hj, hj0, hz⟩ := hex
  have hzs : 1 ≤ zeroStates ps := by
    unfold zeroStates
    have hmem : j ∈ (List.range ps.length).filter (fun i => decide (ps.getD i 0 = 0)) := by
      apply List.mem_filter.mpr
      refine ⟨List.mem_range.mpr hj, ?_⟩
      simp only [decide_eq_true_eq]
      exact hz
    have hne := List.ne_nil_of_mem hmem
    have hpos := List.length_pos.mpr hne
    omega
  exact ⟨specialPairs_length ps, hscan, hzs, hnot,
    j, hj, hj0, hz, hnot j hj hj0 hz⟩

/-- Witness for C10 (amended): probabilities `[1, 0]`. -/
theorem C10_default_entries_witness :
    ((∀ x ∈ [(1:ℚ), 0], 0 ≤ x) ∧
      (∃ j, j < ([(1:ℚ), 0]).length ∧ j ≠ 0 ∧ ([(1:ℚ), 0]).getD j 0 = 0)) ∧
    ((specialPairs [(1:ℚ), 0]).length = 2 * ([(1:ℚ), 0]).length ∧
      scannedStates [(1:ℚ), 0] =
        posList [(1:ℚ), 0] ++ List.replicate (zeroStates [(1:ℚ), 0]) 0 ∧
      1 ≤ zeroStates [(1:ℚ), 0] ∧
      (∀ j < ([(1:ℚ), 0]).length, j ≠ 0 → ([(1:ℚ), 0]).getD j 0 = 0 →
        j ∉ scannedStates [(1:ℚ), 0]) ∧
      (∃ j, j < ([(1:ℚ), 0]).length ∧ j ≠ 0 ∧ ([(1:ℚ), 0]).getD j 0 = 0 ∧
        j ∉ scannedStates [(1:ℚ), 0])) :=
  ⟨⟨by decide, ⟨1, by decide, by decide, by decide⟩⟩,
   C10_default_entries [(1:ℚ), 0] (by decide) ⟨1, by decide, by decide, by decide⟩⟩

end KaldiChain
